import Mathlib

/-!
# A mark-and-sweep collector for a toy stack machine (`main.c`)

Shallow embedding of the collector of `src/main.c`.

* A pointer is a natural number, `0` being `NULL`.  The C heap is a map
  from addresses to objects (`none` = not allocated).  `malloc` is an
  oracle: every allocating operation receives the address `p` that `malloc`
  returned; the theorems assume it is fresh (`p ≠ 0`, not allocated).
* Dereferencing an address that holds no object is undefined behaviour in C
  and the fault `invalid_pointer` here; indexing `Stack` outside its
  `STACK_MAX` slots is the fault `out_of_bounds`.  The two `assert`s are the
  faults `stack_overflow` and `stack_underflow`.
* The recursion of `vm_mark` and the loop of `vm_sweep` are bounded by a
  fuel argument (recursion depth, number of iterations); running out of it
  is the fault `out_of_fuel`.  The theorems show which fuel is enough.
* The C `int` fields are integers.  The one product of the program,
  `NumObjects * 2` in `vm_gc`, is reduced to the 32 bits of a C `int`
  (`int32`): it leaves the range of `int` as soon as `2^30` objects survive
  a collection.  The counters move by one per object and are not reduced:
  they stay within `int` up to `2^31 - 1` objects.
* The diagnostic `printf` of `vm_gc` and the dump functions have no effect
  on the state and are left out.
-/

namespace BabysFirstGC

/-! ## Data model -/

def STACK_MAX : Nat := 256

def INITIAL_GC_THRESHOLD : Int := 8

/-- The value a 32-bit two's complement C `int` holds for the integer `x`. -/
def int32 (x : Int) : Int :=
  (x + 2147483648) % 4294967296 - 2147483648

inductive object_type where
  | OBJ_INT
  | OBJ_PAIR
  deriving DecidableEq, Repr

/-- The C `struct object`.  The members of the union `As` are kept as three
fields; the code reads `Head` and `Tail` only under `Type == OBJ_PAIR`. -/
structure object where
  Type_ : object_type
  AsInt : Int
  Head : Nat
  Tail : Nat
  Marked : Bool
  Next : Nat
  deriving DecidableEq, Repr

/-- The C `struct vm`, together with the heap its pointers refer to. -/
structure vm where
  Stack : List Nat
  StackSize : Int
  FirstObject : Nat
  NumObjects : Int
  MaxObjects : Int
  mem : Nat → Option object

inductive fault where
  | stack_overflow
  | stack_underflow
  | invalid_pointer
  | out_of_bounds
  | out_of_fuel
  deriving DecidableEq, Repr

/-- Heap write `*p = o`. -/
def store (m : Nat → Option object) (p : Nat) (o : object) : Nat → Option object :=
  fun q => if q = p then some o else m q

/-- Heap release `free(p)`. -/
def release (m : Nat → Option object) (p : Nat) : Nat → Option object :=
  fun q => if q = p then none else m q

/-! ## Operations -/

/-- The constructor `vm_new`: the compound literal zeroes every member it does not name. -/
def vm_new : vm :=
  { Stack := List.replicate STACK_MAX 0
    StackSize := 0
    FirstObject := 0
    NumObjects := 0
    MaxObjects := INITIAL_GC_THRESHOLD
    mem := fun _ => none }

/-- The function `vm_mark`, on the heap alone. -/
def vm_mark : Nat → (Nat → Option object) → Nat → Except fault (Nat → Option object)
  | 0, _, _ => .error .out_of_fuel
  | fuel + 1, m, p =>
    match m p with
    | none => .error .invalid_pointer
    | some o =>
      if o.Marked then .ok m
      else
        let m1 := store m p { o with Marked := true }
        if o.Type_ = .OBJ_PAIR then
          match vm_mark fuel m1 o.Head with
          | .error e => .error e
          | .ok m2 => vm_mark fuel m2 o.Tail
        else .ok m1

/-- The loop of `vm_mark_all` from index `i`, with `k` iterations left. -/
def vm_mark_from (fuel : Nat) (Stack : List Nat) :
    Nat → Nat → (Nat → Option object) → Except fault (Nat → Option object)
  | 0, _, m => .ok m
  | k + 1, i, m =>
    match Stack[i]? with
    | none => .error .out_of_bounds
    | some p =>
      match vm_mark fuel m p with
      | .error e => .error e
      | .ok m1 => vm_mark_from fuel Stack k (i + 1) m1

/-- The function `vm_mark_all`: `for (i = 0; i < StackSize; i++) vm_mark(Stack[i])`. -/
def vm_mark_all (fuel : Nat) (VM : vm) : Except fault vm :=
  match vm_mark_from fuel VM.Stack VM.StackSize.toNat 0 VM.mem with
  | .error e => .error e
  | .ok m => .ok { VM with mem := m }

/-- The cell the cursor `object** Object` of `vm_sweep` points at: the
field `FirstObject` of the VM, or the field `Next` of the object at `p`. -/
inductive cursor where
  | first
  | next (p : Nat)
  deriving DecidableEq, Repr

/-- Read through the cursor: `*Object`. -/
def cursor_read (VM : vm) : cursor → Except fault Nat
  | .first => .ok VM.FirstObject
  | .next p =>
    match VM.mem p with
    | some o => .ok o.Next
    | none => .error .invalid_pointer

/-- Write through the cursor: `*Object = v`. -/
def cursor_write (VM : vm) (v : Nat) : cursor → Except fault vm
  | .first => .ok { VM with FirstObject := v }
  | .next p =>
    match VM.mem p with
    | some o => .ok { VM with mem := store VM.mem p { o with Next := v } }
    | none => .error .invalid_pointer

/-- The `while` loop of `vm_sweep`; one unit of fuel per test of `*Object`. -/
def vm_sweep_loop : Nat → vm → cursor → Except fault vm
  | 0, _, _ => .error .out_of_fuel
  | fuel + 1, VM, c =>
    match cursor_read VM c with
    | .error e => .error e
    | .ok cur =>
      if cur = 0 then .ok VM
      else
        match VM.mem cur with
        | none => .error .invalid_pointer
        | some o =>
          if !o.Marked then
            match cursor_write VM o.Next c with
            | .error e => .error e
            | .ok VM1 =>
              vm_sweep_loop fuel
                { VM1 with mem := release VM1.mem cur, NumObjects := VM1.NumObjects - 1 } c
          else
            vm_sweep_loop fuel
              { VM with mem := store VM.mem cur { o with Marked := false } } (.next cur)

/-- The function `vm_sweep`: the loop started at `&VM->FirstObject`. -/
def vm_sweep (fuel : Nat) (VM : vm) : Except fault vm :=
  vm_sweep_loop fuel VM .first

/-- The function `vm_gc`: mark, sweep, then the new threshold. -/
def vm_gc (fuel : Nat) (VM : vm) : Except fault vm :=
  match vm_mark_all fuel VM with
  | .error e => .error e
  | .ok VM1 =>
    match vm_sweep fuel VM1 with
    | .error e => .error e
    | .ok VM2 =>
      .ok { VM2 with
        MaxObjects :=
          if VM2.NumObjects = 0 then INITIAL_GC_THRESHOLD else int32 (VM2.NumObjects * 2) }

/-- The function `vm_new_object`; `p` is the address returned by `malloc`.  The
initialiser zeroes the union. -/
def vm_new_object (fuel : Nat) (VM : vm) (Ty : object_type) (p : Nat) :
    Except fault (Nat × vm) :=
  match (if VM.NumObjects = VM.MaxObjects then vm_gc fuel VM else .ok VM) with
  | .error e => .error e
  | .ok VM1 =>
    .ok (p,
      { VM1 with
        mem := store VM1.mem p
          { Type_ := Ty, AsInt := 0, Head := 0, Tail := 0, Marked := false,
            Next := VM1.FirstObject }
        FirstObject := p
        NumObjects := VM1.NumObjects + 1 })

/-- The function `vm_stack_push`; the `assert` is the stack overflow. -/
def vm_stack_push (VM : vm) (Value : Nat) : Except fault vm :=
  if VM.StackSize < STACK_MAX then
    if 0 ≤ VM.StackSize ∧ VM.StackSize.toNat < VM.Stack.length then
      .ok { VM with
        Stack := VM.Stack.set VM.StackSize.toNat Value
        StackSize := VM.StackSize + 1 }
    else .error .out_of_bounds
  else .error .stack_overflow

/-- The function `vm_pop`; the `assert` is the stack underflow. -/
def vm_pop (VM : vm) : Except fault (Nat × vm) :=
  if VM.StackSize > 0 then
    match VM.Stack[(VM.StackSize - 1).toNat]? with
    | some v => .ok (v, { VM with StackSize := VM.StackSize - 1 })
    | none => .error .out_of_bounds
  else .error .stack_underflow

/-- The function `vm_push_int`. -/
def vm_push_int (fuel : Nat) (VM : vm) (Value : Int) (p : Nat) : Except fault vm :=
  match vm_new_object fuel VM .OBJ_INT p with
  | .error e => .error e
  | .ok (Object, VM1) =>
    match VM1.mem Object with
    | none => .error .invalid_pointer
    | some o =>
      vm_stack_push { VM1 with mem := store VM1.mem Object { o with AsInt := Value } } Object

/-- The function `vm_push_pair`. -/
def vm_push_pair (fuel : Nat) (VM : vm) (p : Nat) : Except fault (Nat × vm) :=
  match vm_new_object fuel VM .OBJ_PAIR p with
  | .error e => .error e
  | .ok (Object, VM1) =>
    match vm_pop VM1 with
    | .error e => .error e
    | .ok (t, VM2) =>
      match VM2.mem Object with
      | none => .error .invalid_pointer
      | some o =>
        let VM3 := { VM2 with mem := store VM2.mem Object { o with Tail := t } }
        match vm_pop VM3 with
        | .error e => .error e
        | .ok (h, VM4) =>
          match VM4.mem Object with
          | none => .error .invalid_pointer
          | some o1 =>
            let VM5 := { VM4 with mem := store VM4.mem Object { o1 with Head := h } }
            match vm_stack_push VM5 Object with
            | .error e => .error e
            | .ok VM6 => .ok (Object, VM6)

/-- The function `vm_free` up to its last statement: the result is the state
of the VM whose storage `free(VM)` then releases. -/
def vm_free (fuel : Nat) (VM : vm) : Except fault vm :=
  vm_gc fuel { VM with StackSize := 0 }

/-! ## Specification vocabulary -/

/-- The mark bit of the object at `p` (`false` where nothing is allocated). -/
def marked (m : Nat → Option object) (p : Nat) : Bool :=
  match m p with
  | some o => o.Marked
  | none => false

/-- One reference step: `c` is the `Head` or the `Tail` of the pair at `q`. -/
def edge (m : Nat → Option object) (q c : Nat) : Prop :=
  match m q with
  | some o => o.Type_ = .OBJ_PAIR ∧ (c = o.Head ∨ c = o.Tail)
  | none => False

/-- The root set: the entries `Stack[0 .. StackSize)`. -/
def roots (VM : vm) : List Nat :=
  VM.Stack.take VM.StackSize.toNat

/-- Reachability from a list of roots through `Head`/`Tail` (I1). -/
def reach_from (m : Nat → Option object) (rs : List Nat) (q : Nat) : Prop :=
  ∃ r, r ∈ rs ∧ Relation.ReflTransGen (edge m) r q

/-- Reachability from the root set of the VM (I1). -/
def Reachable (VM : vm) (q : Nat) : Prop :=
  reach_from VM.mem (roots VM) q

/-- The registry: `L` lists the addresses met when following `Next` from `p`
up to `NULL`. -/
def chain (m : Nat → Option object) : Nat → List Nat → Prop
  | p, [] => p = 0
  | p, q :: L =>
    p = q ∧ p ≠ 0 ∧
      match m p with
      | some o => chain m o.Next L
      | none => False

/-- The part of an object that a collection leaves alone. -/
def payload (o : object) : object_type × Int × Nat × Nat :=
  (o.Type_, o.AsInt, o.Head, o.Tail)

/-- Well-formed VM with registry `L`: the registry is a `NULL`-terminated
list, all its mark bits are false, the fields of its pairs and the roots
refer to registered objects, and the stack is the C array with a size
within its bounds. -/
structure wf (VM : vm) (L : List Nat) : Prop where
  registry : chain VM.mem VM.FirstObject L
  unmarked : ∀ p, p ∈ L → marked VM.mem p = false
  fields : ∀ p, p ∈ L → ∀ c, edge VM.mem p c → c ∈ L
  stack_len : VM.Stack.length = STACK_MAX
  size_lo : 0 ≤ VM.StackSize
  size_hi : VM.StackSize ≤ STACK_MAX
  roots_in : ∀ r, r ∈ roots VM → r ∈ L

/-- The threshold test at the start of `vm_new_object`. -/
def gate (fuel : Nat) (VM : vm) : Except fault vm :=
  if VM.NumObjects = VM.MaxObjects then vm_gc fuel VM else .ok VM

/-- What `malloc` may return in `vm_new_object`: a non-null address that is
not allocated when `malloc` is called, that is after the collection the
call may have triggered. -/
def malloc_fresh (fuel : Nat) (VM : vm) (p : Nat) : Prop :=
  p ≠ 0 ∧ ∀ VM1, gate fuel VM = .ok VM1 → VM1.mem p = none

/-- States reached from `vm_new` by successful operations. -/
inductive Reach : vm → Prop where
  | new : Reach vm_new
  | push_int {s s1 : vm} (fuel : Nat) (v : Int) (p : Nat) :
      Reach s → malloc_fresh fuel s p → vm_push_int fuel s v p = .ok s1 → Reach s1
  | pop {s s1 : vm} (r : Nat) : Reach s → vm_pop s = .ok (r, s1) → Reach s1
  | push_pair {s s1 : vm} (fuel : Nat) (p r : Nat) :
      Reach s → malloc_fresh fuel s p → vm_push_pair fuel s p = .ok (r, s1) → Reach s1
  | gc {s s1 : vm} (fuel : Nat) : Reach s → vm_gc fuel s = .ok s1 → Reach s1

/-- Heap `m1` is heap `m` with some unmarked objects marked. -/
def grows (m m1 : Nat → Option object) : Prop :=
  ∀ q, m1 q = m q ∨ ∃ o, m q = some o ∧ o.Marked = false ∧ m1 q = some { o with Marked := true }

/-- Every address of `D` holds an object whose references stay in `D`. -/
def closed_in (m : Nat → Option object) (D : List Nat) : Prop :=
  ∀ q, q ∈ D → (∃ o, m q = some o) ∧ ∀ c, edge m q c → c ∈ D

/-- Number of unmarked entries of `D`. -/
def ucount (m : Nat → Option object) (D : List Nat) : Nat :=
  D.countP (fun q => !marked m q)

/-- What the loop of `vm_sweep`, started at cursor `c` in `VM`, leaves in
`VM1` when the list hanging off the cursor is `L`. -/
structure sweep_post (VM : vm) (c : cursor) (L : List Nat) (VM1 : vm) : Prop where
  registry : ∃ cur1, cursor_read VM1 c = .ok cur1 ∧
    chain VM1.mem cur1 (L.filter (fun p => marked VM.mem p))
  kept : ∀ p, p ∈ L → marked VM.mem p = true →
    ∃ o o1, VM.mem p = some o ∧ VM1.mem p = some o1 ∧ payload o1 = payload o ∧
      o1.Marked = false
  freed : ∀ p, p ∈ L → marked VM.mem p = false → VM1.mem p = none
  frame : ∀ p, p ∉ L → c ≠ .next p → VM1.mem p = VM.mem p
  cell : ∀ q, c = .next q →
    ∃ o o1, VM.mem q = some o ∧ VM1.mem q = some o1 ∧ payload o1 = payload o ∧
      o1.Marked = o.Marked
  first : c ≠ .first → VM1.FirstObject = VM.FirstObject
  count : VM1.NumObjects = VM.NumObjects - (L.countP (fun p => !marked VM.mem p) : Nat)
  stack : VM1.Stack = VM.Stack
  size : VM1.StackSize = VM.StackSize
  max : VM1.MaxObjects = VM.MaxObjects

/-- What `vm_gc` leaves in `VM1`, with registry `L1`, when started in `VM`
with registry `L`. -/
structure gc_post (VM : vm) (L : List Nat) (VM1 : vm) (L1 : List Nat) : Prop where
  wf1 : wf VM1 L1
  sub : L1.Sublist L
  live : ∀ p, p ∈ L1 ↔ Reachable VM p
  kept : ∀ p, p ∈ L1 → (VM1.mem p).map payload = (VM.mem p).map payload
  freed : ∀ p, p ∈ L → p ∉ L1 → VM1.mem p = none
  frame : ∀ p, p ∉ L → VM1.mem p = VM.mem p
  count : VM1.NumObjects = VM.NumObjects - ((L.length - L1.length : Nat) : Int)
  max : VM1.MaxObjects =
    if VM1.NumObjects = 0 then INITIAL_GC_THRESHOLD else int32 (VM1.NumObjects * 2)
  stack : VM1.Stack = VM.Stack
  size : VM1.StackSize = VM.StackSize
  reach : ∀ p, Reachable VM1 p ↔ Reachable VM p

/-- The C array `Stack[STACK_MAX]` with `StackSize` within its bounds. -/
def shape (VM : vm) : Prop :=
  VM.Stack.length = STACK_MAX ∧ 0 ≤ VM.StackSize ∧ VM.StackSize ≤ STACK_MAX

/-- What the threshold test of `vm_new_object` leaves in `VMg`, with registry
`Lg`, when started in `VM` with registry `L`: either nothing changed or a
collection ran. -/
structure gate_post (VM : vm) (L : List Nat) (VMg : vm) (Lg : List Nat) : Prop where
  wf1 : wf VMg Lg
  sub : Lg.Sublist L
  live : ∀ p, Reachable VM p → p ∈ Lg
  kept : ∀ p, p ∈ Lg → (VMg.mem p).map payload = (VM.mem p).map payload
  freed : ∀ p, p ∈ L → p ∉ Lg → VMg.mem p = none
  frame : ∀ p, p ∉ L → VMg.mem p = VM.mem p
  count : VMg.NumObjects = VM.NumObjects - ((L.length - Lg.length : Nat) : Int)
  stack : VMg.Stack = VM.Stack
  size : VMg.StackSize = VM.StackSize
  reach : ∀ p, Reachable VMg p ↔ Reachable VM p
  idle : VM.NumObjects ≠ VM.MaxObjects → VMg = VM ∧ Lg = L
  ran : VM.NumObjects = VM.MaxObjects → gc_post VM L VMg Lg

/-- What a successful `vm_push_int` or `vm_push_pair` leaves in `VM1`: the
object `o` is stored at the fresh address `p` and registered in front of the
registry `Lg` left by the threshold test in `VMg`. -/
structure alloc_post (VMg : vm) (Lg : List Nat) (p : Nat) (o : object) (VM1 : vm) : Prop where
  wf1 : wf VM1 (p :: Lg)
  mem : VM1.mem = store VMg.mem p o
  first : VM1.FirstObject = p
  count : VM1.NumObjects = VMg.NumObjects + 1
  max : VM1.MaxObjects = VMg.MaxObjects

/-- Invariant of the states reached from `vm_new`, with registry `L`: the VM
is well-formed, the live count is the length of the registry, and every
allocated object is registered. -/
structure inv (VM : vm) (L : List Nat) : Prop where
  wf0 : wf VM L
  count : VM.NumObjects = L.length
  owned : ∀ p o, VM.mem p = some o → p ∈ L

/-! ## Test scenarios and executable checks -/

/-- The result of `n` consecutive calls of `vm_gc`. -/
def vm_gc_iter (fuel : Nat) : Nat → vm → Except fault vm
  | 0, VM => .ok VM
  | n + 1, VM =>
    match vm_gc fuel VM with
    | .error e => .error e
    | .ok VM1 => vm_gc_iter fuel n VM1

/-- Executable form of `chain`. -/
def chain_check (m : Nat → Option object) : Nat → List Nat → Bool
  | p, [] => p == 0
  | p, q :: L =>
    p == q && p != 0 &&
      match m p with
      | some o => chain_check m o.Next L
      | none => false

/-- Executable form of `wf`. -/
def wf_check (VM : vm) (L : List Nat) : Bool :=
  chain_check VM.mem VM.FirstObject L &&
  L.all (fun p => !marked VM.mem p) &&
  L.all (fun p =>
    match VM.mem p with
    | some o => o.Type_ != .OBJ_PAIR || (L.contains o.Head && L.contains o.Tail)
    | none => true) &&
  decide (VM.Stack.length = STACK_MAX) && decide (0 ≤ VM.StackSize) &&
  decide (VM.StackSize ≤ STACK_MAX) && (roots VM).all (fun r => L.contains r)

/-- The state of a run that returned; `vm_new` stands for an aborted run. -/
def state_of (r : Except fault vm) : vm :=
  match r with
  | .ok s => s
  | .error _ => vm_new

/-- The state after a `vm_pop` or `vm_push_pair` that returned. -/
def pair_state (r : Except fault (Nat × vm)) : vm :=
  match r with
  | .ok (_, s) => s
  | .error _ => vm_new

/-- The assignment `A->As.Pair.Tail = B` of `test4` and `test5`. -/
def set_tail (VM : vm) (A B : Nat) : vm :=
  match VM.mem A with
  | some o => { VM with mem := store VM.mem A { o with Tail := B } }
  | none => VM

/-- The assignment `A->As.Pair.Head = B`. -/
def set_head (VM : vm) (A B : Nat) : vm :=
  match VM.mem A with
  | some o => { VM with mem := store VM.mem A { o with Head := B } }
  | none => VM

/-- Whether a run returned. -/
def is_ok {α : Type} (r : Except fault α) : Bool :=
  match r with
  | .ok _ => true
  | .error _ => false

/-- Executable form of `malloc_fresh`. -/
def fresh_check (fuel : Nat) (VM : vm) (p : Nat) : Bool :=
  p != 0 &&
    match gate fuel VM with
    | .ok g => (g.mem p).isNone
    | .error _ => false

/-- The VM of `test1` before its `vm_gc`; `malloc` returns 1, 2. -/
def test1_state : vm :=
  state_of (vm_push_int 9 (state_of (vm_push_int 9 vm_new 1 1)) 2 2)

/-- The VM of `test2` before its `vm_gc`. -/
def test2_state : vm :=
  pair_state (vm_pop (pair_state (vm_pop test1_state)))

/-- The VM of `test4` and `test5` before the cycle is set up; `malloc`
returns 1, 2, ..., so that `A` is 3 and `B` is 6. -/
def two_pairs_state : vm :=
  let s3 := pair_state (vm_push_pair 9 test1_state 3)
  let s4 := state_of (vm_push_int 9 s3 3 4)
  let s5 := state_of (vm_push_int 9 s4 4 5)
  pair_state (vm_push_pair 9 s5 6)

/-- The VM of `test3` before its `vm_gc`. -/
def test3_state : vm :=
  pair_state (vm_push_pair 9 two_pairs_state 7)

/-- The VM of `test4` before its `vm_gc`: the pairs at 3 and 6 point at each
other and both are on the stack. -/
def test4_state : vm :=
  set_tail (set_tail two_pairs_state 3 6) 6 3

/-- The VM of `test5` before its `vm_gc`: as in `test4`, with both pairs
popped. -/
def test5_state : vm :=
  pair_state (vm_pop (pair_state (vm_pop test4_state)))

/-- A VM whose live count has reached the threshold with two entries on the
stack: `vm_push_int`, `vm_gc`, `vm_push_int` from `vm_new`. -/
def threshold_state : vm :=
  state_of (vm_push_int 9 (state_of (vm_gc 9 (state_of (vm_push_int 9 vm_new 1 1)))) 2 2)

/-- States reached from `vm_new` by successful operations and by assignments of
a live object to the `Head` or `Tail` of a live pair, as `test4` and `test5`
do to set up a cycle. -/
inductive ReachRewire : vm → Prop where
  | new : ReachRewire vm_new
  | push_int {s s1 : vm} (fuel : Nat) (v : Int) (p : Nat) :
      ReachRewire s → malloc_fresh fuel s p → vm_push_int fuel s v p = .ok s1 →
      ReachRewire s1
  | pop {s s1 : vm} (r : Nat) : ReachRewire s → vm_pop s = .ok (r, s1) → ReachRewire s1
  | push_pair {s s1 : vm} (fuel : Nat) (p r : Nat) :
      ReachRewire s → malloc_fresh fuel s p → vm_push_pair fuel s p = .ok (r, s1) →
      ReachRewire s1
  | gc {s s1 : vm} (fuel : Nat) : ReachRewire s → vm_gc fuel s = .ok s1 → ReachRewire s1
  | set_head {s : vm} (A B : Nat) (o b : object) :
      ReachRewire s → s.mem A = some o → o.Type_ = .OBJ_PAIR → s.mem B = some b →
      ReachRewire (set_head s A B)
  | set_tail {s : vm} (A B : Nat) (o b : object) :
      ReachRewire s → s.mem A = some o → o.Type_ = .OBJ_PAIR → s.mem B = some b →
      ReachRewire (set_tail s A B)

/-- Heap `m1` holds no object that `m` does not hold, and its objects have the
type, value, `Head` and `Tail` they have in `m`. -/
def shrinks (m m1 : Nat → Option object) : Prop :=
  ∀ q o1, m1 q = some o1 → ∃ o, m q = some o ∧ payload o1 = payload o

/-- Executable form of the side conditions of a rewiring step. -/
def rewire_check (VM : vm) (A B : Nat) : Bool :=
  match VM.mem A, VM.mem B with
  | some o, some _ => o.Type_ == .OBJ_PAIR
  | _, _ => false

/-- The VM of `test1` with its two roots exchanged. -/
def test1_swapped : vm :=
  { test1_state with Stack := (test1_state.Stack.set 0 2).set 1 1 }

/-- States reached from `vm_new` by successful operations in the course of
which every collection, called or run by an allocation at the threshold,
leaves fewer than `2^30` survivors, so that the product `NumObjects * 2` of
`vm_gc` stays within the C `int`.  For an allocation at the threshold the
condition reads on its result: the survivors plus the new object. -/
inductive ReachBounded : vm → Prop where
  | new : ReachBounded vm_new
  | push_int {s s1 : vm} (fuel : Nat) (v : Int) (p : Nat) :
      ReachBounded s → malloc_fresh fuel s p → vm_push_int fuel s v p = .ok s1 →
      (s.NumObjects = s.MaxObjects → s1.NumObjects ≤ 1073741824) → ReachBounded s1
  | pop {s s1 : vm} (r : Nat) : ReachBounded s → vm_pop s = .ok (r, s1) → ReachBounded s1
  | push_pair {s s1 : vm} (fuel : Nat) (p r : Nat) :
      ReachBounded s → malloc_fresh fuel s p → vm_push_pair fuel s p = .ok (r, s1) →
      (s.NumObjects = s.MaxObjects → s1.NumObjects ≤ 1073741824) → ReachBounded s1
  | gc {s s1 : vm} (fuel : Nat) :
      ReachBounded s → vm_gc fuel s = .ok s1 → s1.NumObjects < 1073741824 →
      ReachBounded s1

/-- Executable form of the bound on an allocation at the threshold. -/
def bound_check (s s1 : vm) : Bool :=
  s.NumObjects != s.MaxObjects || decide (s1.NumObjects ≤ 1073741824)

/-! ## Heap lemmas -/

theorem store_same (m : Nat → Option object) (p : Nat) (o : object) :
    store m p o p = some o := by
  simp [store]

theorem store_other (m : Nat → Option object) {p q : Nat} (o : object) (h : q ≠ p) :
    store m p o q = m q := by
  simp [store, h]

theorem release_same (m : Nat → Option object) (p : Nat) : release m p p = none := by
  simp [release]

theorem release_other (m : Nat → Option object) {p q : Nat} (h : q ≠ p) :
    release m p q = m q := by
  simp [release, h]

theorem store_store (m : Nat → Option object) (p : Nat) (o o1 : object) :
    store (store m p o) p o1 = store m p o1 := by
  funext q
  by_cases h : q = p <;> simp [store, h]

/-! ## Registry lists -/

theorem chain_congr {m m1 : Nat → Option object} :
    ∀ (L : List Nat) (p : Nat),
      (∀ q, q ∈ L → (m1 q).map (fun o => o.Next) = (m q).map (fun o => o.Next)) →
      chain m p L → chain m1 p L
  | [], _, _, h => h
  | q :: L, p, hq, h => by
    obtain ⟨rfl, h0, h2⟩ := h
    refine ⟨rfl, h0, ?_⟩
    have e := hq p (List.mem_cons_self _ _)
    cases hm : m p with
    | none => simp [hm] at h2
    | some o =>
      simp only [hm] at h2 e
      cases hm1 : m1 p with
      | none => simp [hm1] at e
      | some o1 =>
        simp only [hm1, Option.map_some', Option.some.injEq] at e
        simp only [e]
        exact chain_congr L _ (fun q hq1 => hq q (List.mem_cons_of_mem _ hq1)) h2

theorem chain_alloc {m : Nat → Option object} :
    ∀ (L : List Nat) (p q : Nat), chain m p L → q ∈ L → q ≠ 0 ∧ ∃ o, m q = some o
  | [], _, _, _, hq => by simp at hq
  | a :: L, p, q, h, hq => by
    obtain ⟨rfl, h0, h2⟩ := h
    cases hm : m p with
    | none => simp [hm] at h2
    | some o =>
      simp only [hm] at h2
      rcases List.mem_cons.1 hq with rfl | hq1
      · exact ⟨h0, o, hm⟩
      · exact chain_alloc L _ q h2 hq1

theorem chain_unique {m : Nat → Option object} :
    ∀ (L L1 : List Nat) (p : Nat), chain m p L → chain m p L1 → L = L1
  | [], [], _, _, _ => rfl
  | [], _ :: _, p, h, h1 => by
    have h0 : p = 0 := h
    exact absurd h0 h1.2.1
  | _ :: _, [], p, h, h1 => by
    have h0 : p = 0 := h1
    exact absurd h0 h.2.1
  | a :: L, b :: L1, p, h, h1 => by
    obtain ⟨rfl, _, h2⟩ := h
    obtain ⟨rfl, _, h3⟩ := h1
    cases hm : m p with
    | none => simp [hm] at h2
    | some o =>
      simp only [hm] at h2 h3
      rw [chain_unique L L1 _ h2 h3]

theorem chain_tail {m : Nat → Option object} :
    ∀ (A : List Nat) (q : Nat) (B : List Nat) (p : Nat),
      chain m p (A ++ q :: B) → chain m q (q :: B)
  | [], _, _, _, h => by
    obtain ⟨rfl, h0, h2⟩ := h
    exact ⟨rfl, h0, h2⟩
  | a :: A, q, B, p, h => by
    obtain ⟨rfl, _, h2⟩ := h
    cases hm : m p with
    | none => simp [hm] at h2
    | some o =>
      simp only [hm] at h2
      exact chain_tail A q B _ h2

theorem chain_nodup {m : Nat → Option object} :
    ∀ (L : List Nat) (p : Nat), chain m p L → L.Nodup
  | [], _, _ => List.nodup_nil
  | a :: L, p, h => by
    have hfull := h
    obtain ⟨rfl, _, h2⟩ := h
    cases hm : m p with
    | none => simp [hm] at h2
    | some o =>
      simp only [hm] at h2
      refine List.nodup_cons.2 ⟨?_, chain_nodup L _ h2⟩
      intro hin
      obtain ⟨A, B, rfl⟩ := List.append_of_mem hin
      have h3 := chain_tail A p B _ h2
      have h4 := chain_unique _ _ _ hfull h3
      have h5 := congrArg List.length h4
      simp at h5
      omega

/-! ## The mark phase -/

theorem grows_refl (m : Nat → Option object) : grows m m := fun _ => Or.inl rfl

theorem grows_trans {m m1 m2 : Nat → Option object} (h : grows m m1) (h1 : grows m1 m2) :
    grows m m2 := by
  intro q
  rcases h1 q with e1 | ⟨o1, e1, f1, g1⟩
  · rw [e1]; exact h q
  · rcases h q with e | ⟨o, e, f, g⟩
    · right; exact ⟨o1, by rw [← e]; exact e1, f1, g1⟩
    · rw [g] at e1
      cases e1
      simp at f1

theorem grows_store {m : Nat → Option object} {p : Nat} {o : object} (h : m p = some o)
    (hf : o.Marked = false) : grows m (store m p { o with Marked := true }) := by
  intro q
  by_cases hq : q = p
  · subst hq
    right
    exact ⟨o, h, hf, store_same _ _ _⟩
  · left
    exact store_other _ _ hq

theorem grows_marked {m m1 : Nat → Option object} (h : grows m m1) {q : Nat}
    (hq : marked m q = true) : marked m1 q = true := by
  rcases h q with e | ⟨o, e, f, _⟩
  · simpa [marked, e] using hq
  · simp [marked, e, f] at hq

theorem grows_edge {m m1 : Nat → Option object} (h : grows m m1) (q c : Nat) :
    edge m1 q c ↔ edge m q c := by
  rcases h q with e | ⟨o, e, _, g⟩
  · simp [edge, e]
  · simp [edge, e, g]

theorem grows_next {m m1 : Nat → Option object} (h : grows m m1) (q : Nat) :
    (m1 q).map (fun o => o.Next) = (m q).map (fun o => o.Next) := by
  rcases h q with e | ⟨o, e, _, g⟩
  · rw [e]
  · simp [e, g]

theorem grows_payload {m m1 : Nat → Option object} (h : grows m m1) (q : Nat) :
    (m1 q).map payload = (m q).map payload := by
  rcases h q with e | ⟨o, e, _, g⟩
  · rw [e]
  · simp [e, g, payload]

theorem grows_alloc {m m1 : Nat → Option object} (h : grows m m1) {q : Nat} {o : object}
    (hq : m q = some o) : ∃ o1, m1 q = some o1 := by
  rcases h q with e | ⟨o, _, _, g⟩
  · exact ⟨o, by rw [e, hq]⟩
  · exact ⟨_, g⟩

theorem grows_none {m m1 : Nat → Option object} (h : grows m m1) {q : Nat}
    (hq : m q = none) : m1 q = none := by
  rcases h q with e | ⟨o, e, _, _⟩
  · rw [e, hq]
  · rw [hq] at e; cases e

theorem grows_closed {m m1 : Nat → Option object} (h : grows m m1) {D : List Nat}
    (hD : closed_in m D) : closed_in m1 D := by
  intro q hq
  obtain ⟨⟨o, ho⟩, hc⟩ := hD q hq
  exact ⟨grows_alloc h ho, fun c hc1 => hc c ((grows_edge h q c).1 hc1)⟩

theorem grows_reach {m m1 : Nat → Option object} (h : grows m m1) (r q : Nat) :
    Relation.ReflTransGen (edge m1) r q ↔ Relation.ReflTransGen (edge m) r q := by
  have e : edge m1 = edge m := by
    funext a b
    exact propext (grows_edge h a b)
  rw [e]

theorem ucount_mono {m m1 : Nat → Option object} (h : grows m m1) (D : List Nat) :
    ucount m1 D ≤ ucount m D := by
  unfold ucount
  apply List.countP_mono_left
  intro q _ hq
  cases hm : marked m q with
  | false => rfl
  | true => simp [grows_marked h hm] at hq

theorem ucount_store_lt {m : Nat → Option object} {p : Nat} {o : object} (h : m p = some o)
    (hf : o.Marked = false) :
    ∀ D : List Nat, p ∈ D → ucount (store m p { o with Marked := true }) D < ucount m D
  | [], hp => by simp at hp
  | a :: D, hp => by
    have hle := ucount_mono (grows_store h hf) D
    unfold ucount at hle ⊢
    by_cases ha : a = p
    · subst ha
      have e1 : marked (store m a { o with Marked := true }) a = true := by
        simp [marked, store_same]
      have e2 : marked m a = false := by simp [marked, h, hf]
      simp only [List.countP_cons, e1, e2]
      simp
      omega
    · have hp1 : p ∈ D := by
        rcases List.mem_cons.1 hp with e | e
        · exact absurd e.symm ha
        · exact e
      have ih := ucount_store_lt h hf D hp1
      unfold ucount at ih
      have e1 : marked (store m p { o with Marked := true }) a = marked m a := by
        simp [marked, store_other _ _ ha]
      simp only [List.countP_cons, e1]
      omega

/-- What one call of `vm_mark` does. -/
theorem vm_mark_spec (D : List Nat) :
    ∀ (fuel : Nat) (m : Nat → Option object) (p : Nat),
      closed_in m D → p ∈ D → ucount m D < fuel →
      ∃ m1, vm_mark fuel m p = .ok m1 ∧ grows m m1 ∧ marked m1 p = true ∧
        (∀ q, marked m1 q = true → marked m q = false → ∀ c, edge m q c → marked m1 c = true) ∧
        (∀ q, marked m1 q = true → marked m q = false → Relation.ReflTransGen (edge m) p q)
  | 0, _, _, _, _, hf => by omega
  | fuel + 1, m, p, hD, hp, hf => by
    obtain ⟨⟨o, ho⟩, hc⟩ := hD p hp
    unfold vm_mark
    simp only [ho]
    by_cases hm : o.Marked = true
    · simp only [hm, if_true]
      refine ⟨m, rfl, grows_refl m, by simp [marked, ho, hm], ?_, ?_⟩
      · intro q h1 h2; rw [h1] at h2; cases h2
      · intro q h1 h2; rw [h1] at h2; cases h2
    · have hm0 : o.Marked = false := by simpa using hm
      simp only [hm0]
      have g1 := grows_store ho hm0
      have hlt := ucount_store_lt ho hm0 D hp
      have hp1 : marked (store m p { o with Marked := true }) p = true := by
        simp [marked, store_same]
      -- the only object marked by the store is `p`
      have only_p : ∀ q, marked (store m p { o with Marked := true }) q = true →
          marked m q = false → q = p := by
        intro q h1 h2
        by_contra hne
        rw [show marked (store m p { o with Marked := true }) q = marked m q by
          simp [marked, store_other _ _ hne]] at h1
        rw [h1] at h2; cases h2
      by_cases ht : o.Type_ = .OBJ_PAIR
      · have eH : edge m p o.Head := by simp [edge, ho, ht]
        have eT : edge m p o.Tail := by simp [edge, ho, ht]
        have hD1 := grows_closed g1 hD
        obtain ⟨m2, r2, g2, mk2, cl2, rc2⟩ :=
          vm_mark_spec D fuel _ o.Head hD1 (hc _ eH) (by omega)
        have hD2 := grows_closed g2 hD1
        have hle2 := ucount_mono g2 D
        obtain ⟨m3, r3, g3, mk3, cl3, rc3⟩ :=
          vm_mark_spec D fuel m2 o.Tail hD2 (hc _ eT) (by omega)
        simp only [if_pos ht, Bool.false_eq_true, if_false, r2, r3]
        have g12 := grows_trans g1 g2
        refine ⟨m3, rfl, grows_trans g12 g3, grows_marked g3 (grows_marked g2 hp1), ?_, ?_⟩
        · intro q h3 h0 c hc0
          cases h2 : marked m2 q with
          | false =>
            have := cl3 q h3 h2 c ((grows_edge g12 q c).2 hc0)
            exact this
          | true =>
            cases h1 : marked (store m p { o with Marked := true }) q with
            | false =>
              exact grows_marked g3 (cl2 q h2 h1 c ((grows_edge g1 q c).2 hc0))
            | true =>
              have hqp := only_p q h1 h0
              subst hqp
              simp only [edge, ho] at hc0
              rcases hc0.2 with e | e
              · rw [e]; exact grows_marked g3 mk2
              · rw [e]; exact mk3
        · intro q h3 h0
          cases h2 : marked m2 q with
          | false =>
            have := (grows_reach g12 _ _).1 (rc3 q h3 h2)
            exact Relation.ReflTransGen.head eT this
          | true =>
            cases h1 : marked (store m p { o with Marked := true }) q with
            | false =>
              have := (grows_reach g1 _ _).1 (rc2 q h2 h1)
              exact Relation.ReflTransGen.head eH this
            | true =>
              rw [only_p q h1 h0]
      · simp only [if_neg ht, if_false, Bool.false_eq_true]
        refine ⟨_, rfl, g1, hp1, ?_, ?_⟩
        · intro q h1 h0 c hc0
          have hqp := only_p q h1 h0
          subst hqp
          simp only [edge, ho] at hc0
          exact absurd hc0.1 ht
        · intro q h1 h0
          rw [only_p q h1 h0]

theorem vm_mark_from_spec (D : List Nat) (fuel : Nat) (S : List Nat) :
    ∀ (k i : Nat) (m : Nat → Option object),
      closed_in m D → i + k ≤ S.length → (∀ r, r ∈ (S.drop i).take k → r ∈ D) →
      ucount m D < fuel →
      ∃ m1, vm_mark_from fuel S k i m = .ok m1 ∧ grows m m1 ∧
        (∀ r, r ∈ (S.drop i).take k → marked m1 r = true) ∧
        (∀ q, marked m1 q = true → marked m q = false → ∀ c, edge m q c → marked m1 c = true) ∧
        (∀ q, marked m1 q = true → marked m q = false → reach_from m ((S.drop i).take k) q)
  | 0, i, m, _, _, _, _ => by
    refine ⟨m, rfl, grows_refl m, by simp, ?_, ?_⟩
    · intro q h1 h2; rw [h1] at h2; cases h2
    · intro q h1 h2; rw [h1] at h2; cases h2
  | k + 1, i, m, hD, hlen, hin, hf => by
    have hi : i < S.length := by omega
    have hdrop : (S.drop i).take (k + 1) = S[i] :: (S.drop (i + 1)).take k := by
      rw [List.drop_eq_getElem_cons hi, List.take_succ_cons]
    rw [hdrop] at hin
    have hget : S[i]? = some S[i] := List.getElem?_eq_getElem hi
    obtain ⟨m1, r1, g1, mk1, cl1, rc1⟩ :=
      vm_mark_spec D fuel m S[i] hD (hin _ (List.mem_cons_self _ _)) hf
    have hD1 := grows_closed g1 hD
    have hle := ucount_mono g1 D
    obtain ⟨m2, r2, g2, mk2, cl2, rc2⟩ :=
      vm_mark_from_spec D fuel S k (i + 1) m1 hD1 (by omega)
        (fun r hr => hin r (List.mem_cons_of_mem _ hr)) (by omega)
    refine ⟨m2, ?_, grows_trans g1 g2, ?_, ?_, ?_⟩
    · unfold vm_mark_from
      simp only [hget, r1]
      exact r2
    · rw [hdrop]
      intro r hr
      rcases List.mem_cons.1 hr with e | hr1
      · rw [e]; exact grows_marked g2 mk1
      · exact mk2 r hr1
    · intro q h2 h0 c hc
      cases h1 : marked m1 q with
      | false => exact cl2 q h2 h1 c ((grows_edge g1 q c).2 hc)
      | true => exact grows_marked g2 (cl1 q h1 h0 c hc)
    · rw [hdrop]
      intro q h2 h0
      cases h1 : marked m1 q with
      | false =>
        obtain ⟨r, hr, hp⟩ := rc2 q h2 h1
        exact ⟨r, List.mem_cons_of_mem _ hr, (grows_reach g1 _ _).1 hp⟩
      | true => exact ⟨S[i], List.mem_cons_self _ _, rc1 q h1 h0⟩

theorem wf_closed {VM : vm} {L : List Nat} (h : wf VM L) : closed_in VM.mem L :=
  fun q hq => ⟨(chain_alloc L _ q h.registry hq).2, h.fields q hq⟩

theorem reachable_in {VM : vm} {L : List Nat} (h : wf VM L) {q : Nat}
    (hq : Reachable VM q) : q ∈ L := by
  obtain ⟨r, hr, hp⟩ := hq
  induction hp with
  | refl => exact h.roots_in r hr
  | tail _ hbc ih => exact h.fields _ ih _ hbc

theorem size_toNat_le {VM : vm} {L : List Nat} (h : wf VM L) :
    VM.StackSize.toNat ≤ VM.Stack.length := by
  have h1 := h.size_hi
  have h2 := h.size_lo
  rw [h.stack_len]
  omega

/-- The mark phase on a well-formed VM: exactly the reachable objects of the
registry end up marked. -/
theorem vm_mark_all_spec {VM : vm} {L : List Nat} (h : wf VM L) {fuel : Nat}
    (hf : L.length < fuel) :
    ∃ m1, vm_mark_all fuel VM = .ok { VM with mem := m1 } ∧ grows VM.mem m1 ∧
      (∀ q, q ∈ L → (marked m1 q = true ↔ Reachable VM q)) ∧
      ∀ q, q ∉ L → m1 q = VM.mem q := by
  have hroots : (VM.Stack.drop 0).take VM.StackSize.toNat = roots VM := rfl
  have hcnt : ucount VM.mem L < fuel :=
    lt_of_le_of_lt (List.countP_le_length _) hf
  obtain ⟨m1, r1, g1, mk1, cl1, rc1⟩ :=
    vm_mark_from_spec L fuel VM.Stack VM.StackSize.toNat 0 VM.mem (wf_closed h)
      (by have := size_toNat_le h; omega) (fun r hr => h.roots_in r hr) hcnt
  refine ⟨m1, by simp [vm_mark_all, r1], g1, ?_, ?_⟩
  · intro q hq
    constructor
    · intro hm
      exact rc1 q hm (h.unmarked q hq)
    · rintro ⟨r, hr, hp⟩
      have key : q ∈ L ∧ marked m1 q = true := by
        induction hp with
        | refl => exact ⟨h.roots_in r hr, mk1 r hr⟩
        | tail hab hbc ih =>
          have ihb := ih (reachable_in h ⟨r, hr, hab⟩)
          exact ⟨h.fields _ ihb.1 _ hbc, cl1 _ ihb.2 (h.unmarked _ ihb.1) _ hbc⟩
      exact key.2
  · intro q hq
    rcases g1 q with e | ⟨o, e, hmf, e1⟩
    · exact e
    · exfalso
      apply hq
      apply reachable_in h
      exact rc1 q (by simp [marked, e1]) (by simp [marked, e, hmf])

/-! ## The sweep phase -/

theorem marked_congr {m m1 : Nat → Option object} {p : Nat} (h : m1 p = m p) :
    marked m1 p = marked m p := by
  simp [marked, h]

theorem cursor_read_first {VM : vm} {v : Nat} (h : VM.FirstObject = v) :
    cursor_read VM .first = .ok v := by
  simp [cursor_read, h]

theorem cursor_read_next {VM : vm} {q v : Nat} {o : object} (h : VM.mem q = some o)
    (hv : o.Next = v) : cursor_read VM (.next q) = .ok v := by
  simp [cursor_read, h, hv]

theorem cursor_read_next_inv {VM : vm} {q v : Nat} (h : cursor_read VM (.next q) = .ok v) :
    ∃ o, VM.mem q = some o ∧ o.Next = v := by
  simp only [cursor_read] at h
  cases hm : VM.mem q with
  | none => simp [hm] at h
  | some o =>
    simp only [hm, Except.ok.injEq] at h
    exact ⟨o, rfl, h⟩

/-- Removal step of the sweep: the cell behind the cursor receives `nx` and
the object at `cur` is released. -/
theorem sweep_unlink (VM : vm) (c : cursor) (cur nx : Nat)
    (hr : cursor_read VM c = .ok cur) (hc : c ≠ .next cur) :
    ∃ VM2, (match cursor_write VM nx c with
        | .error e => .error e
        | .ok VM1 =>
          Except.ok { VM1 with mem := release VM1.mem cur, NumObjects := VM1.NumObjects - 1 })
        = (Except.ok VM2 : Except fault vm) ∧
      VM2.Stack = VM.Stack ∧ VM2.StackSize = VM.StackSize ∧
      VM2.NumObjects = VM.NumObjects - 1 ∧ VM2.MaxObjects = VM.MaxObjects ∧
      cursor_read VM2 c = .ok nx ∧ VM2.mem cur = none ∧
      (∀ p, p ≠ cur → c ≠ .next p → VM2.mem p = VM.mem p) ∧
      (c ≠ .first → VM2.FirstObject = VM.FirstObject) ∧
      (∀ q, c = .next q → ∃ oq, VM.mem q = some oq ∧
        VM2.mem q = some { oq with Next := nx }) := by
  cases c with
  | first =>
    refine ⟨_, rfl, rfl, rfl, rfl, rfl, rfl, release_same _ _, ?_, fun h => absurd rfl h, ?_⟩
    · intro p hp _
      exact release_other _ hp
    · intro q hq; cases hq
  | next q =>
    obtain ⟨oq, hmq, _⟩ := cursor_read_next_inv hr
    have hqc : q ≠ cur := fun e => hc (by rw [e])
    refine ⟨{ VM with mem := release (store VM.mem q { oq with Next := nx }) cur,
                      NumObjects := VM.NumObjects - 1 }, ?_, rfl, rfl, rfl, rfl, ?_,
      release_same _ _, ?_, fun _ => rfl, ?_⟩
    · simp [cursor_write, hmq]
    · exact cursor_read_next (o := { oq with Next := nx })
        (by show release _ cur q = _; rw [release_other _ hqc, store_same]) rfl
    · intro p hp hpq
      have : p ≠ q := fun e => hpq (by rw [e])
      show release _ cur p = _
      rw [release_other _ hp, store_other _ _ this]
    · intro q1 hq1
      cases hq1
      exact ⟨oq, hmq, by show release _ cur q = _; rw [release_other _ hqc, store_same]⟩

theorem vm_sweep_loop_spec :
    ∀ (L : List Nat) (fuel : Nat) (VM : vm) (c : cursor) (cur : Nat),
      cursor_read VM c = .ok cur → chain VM.mem cur L → (∀ q, c = .next q → q ∉ L) →
      L.length < fuel → ∃ VM1, vm_sweep_loop fuel VM c = .ok VM1 ∧ sweep_post VM c L VM1
  | _, 0, _, _, _, _, _, _, hf => by omega
  | [], fuel + 1, VM, c, cur, hr, hch, hc, _ => by
    have h0 : cur = 0 := hch
    subst h0
    refine ⟨VM, by simp [vm_sweep_loop, hr], ?_⟩
    refine ⟨⟨0, hr, rfl⟩, ?_, ?_, fun _ _ _ => rfl, ?_, fun _ => rfl, by simp, rfl, rfl, rfl⟩
    · intro p hp; simp at hp
    · intro p hp; simp at hp
    · intro q hq
      subst hq
      obtain ⟨o, ho, _⟩ := cursor_read_next_inv hr
      exact ⟨o, o, ho, ho, rfl, rfl⟩
  | a :: L, fuel + 1, VM, c, cur, hr, hch, hc, hf => by
    have hnd := chain_nodup _ _ hch
    have haL : a ∉ L := (List.nodup_cons.1 hnd).1
    obtain ⟨hcur, h0, h2⟩ := hch
    subst hcur
    cases hm : VM.mem cur with
    | none => simp [hm] at h2
    | some o =>
    simp only [hm] at h2
    have hlen : L.length < fuel := by simp at hf; omega
    have hcc : c ≠ .next cur := fun e => hc cur e (List.mem_cons_self _ _)
    have hcL : ∀ q, c = .next q → q ∉ L := fun q hq hin => hc q hq (List.mem_cons_of_mem _ hin)
    cases hmk : o.Marked with
    | false =>
      have hmk0 : marked VM.mem cur = false := by simp [marked, hm, hmk]
      obtain ⟨VM2, hstep, hS, hZ, hN, hX, hread, hfree, hmem2, hfirst, hcell⟩ :=
        sweep_unlink VM c cur o.Next hr hcc
      have hsame : ∀ p, p ∈ L → VM2.mem p = VM.mem p := fun p hp =>
        hmem2 p (fun e => haL (e ▸ hp)) (fun e => hcL p e hp)
      have hch2 : chain VM2.mem o.Next L :=
        chain_congr L _ (fun q hq => by rw [hsame q hq]) h2
      obtain ⟨VM1, hrun, post⟩ := vm_sweep_loop_spec L fuel VM2 c o.Next hread hch2 hcL hlen
      have hfil : (cur :: L).filter (fun p => marked VM.mem p) =
          L.filter (fun p => marked VM2.mem p) := by
        rw [List.filter_cons_of_neg (by simp [hmk0])]
        apply List.filter_congr
        intro p hp
        rw [marked_congr (hsame p hp)]
      have hcnt : (cur :: L).countP (fun p => !marked VM.mem p) =
          L.countP (fun p => !marked VM2.mem p) + 1 := by
        rw [List.countP_cons_of_pos _ _ (by simp [hmk0])]
        congr 1
        apply List.countP_congr
        intro p hp
        rw [marked_congr (hsame p hp)]
      refine ⟨VM1, ?_, ?_⟩
      · unfold vm_sweep_loop
        simp only [hr, h0, if_false, hm, hmk, Bool.not_false, if_true]
        cases hcw : cursor_write VM o.Next c with
        | error e => simp [hcw] at hstep
        | ok VMw =>
          simp only [hcw, Except.ok.injEq] at hstep
          simp only [hstep]
          exact hrun
      · refine ⟨by rw [hfil]; exact post.registry, ?_, ?_, ?_, ?_, ?_, ?_, ?_, ?_, ?_⟩
        · intro p hp hmp
          rcases List.mem_cons.1 hp with e | hpL
          · rw [e, hmk0] at hmp; cases hmp
          · obtain ⟨o2, o1, e2, e1, hpay, hmf⟩ :=
              post.kept p hpL (by rw [marked_congr (hsame p hpL)]; exact hmp)
            exact ⟨o2, o1, by rw [← hsame p hpL]; exact e2, e1, hpay, hmf⟩
        · intro p hp hmp
          rcases List.mem_cons.1 hp with e | hpL
          · rw [e, post.frame cur haL hcc]; exact hfree
          · exact post.freed p hpL (by rw [marked_congr (hsame p hpL)]; exact hmp)
        · intro p hp hpc
          have hpcur : p ≠ cur := fun e => hp (e ▸ List.mem_cons_self _ _)
          have hpL : p ∉ L := fun e => hp (List.mem_cons_of_mem _ e)
          rw [post.frame p hpL hpc, hmem2 p hpcur hpc]
        · intro q hq
          obtain ⟨o2, o1, e2, e1, hpay, hmf⟩ := post.cell q hq
          obtain ⟨oq, eq1, eq2⟩ := hcell q hq
          rw [eq2] at e2
          cases e2
          exact ⟨oq, o1, eq1, e1, hpay, hmf⟩
        · intro hne
          rw [post.first hne, hfirst hne]
        · rw [post.count, hN, hcnt]
          push_cast
          omega
        · rw [post.stack, hS]
        · rw [post.size, hZ]
        · rw [post.max, hX]
    | true =>
      have hmk1 : marked VM.mem cur = true := by simp [marked, hm, hmk]
      let VM2 : vm := { VM with mem := store VM.mem cur { o with Marked := false } }
      have hsame : ∀ p, p ≠ cur → VM2.mem p = VM.mem p := fun p hp => store_other _ _ hp
      have hsameL : ∀ p, p ∈ L → VM2.mem p = VM.mem p := fun p hp =>
        hsame p (fun e => haL (e ▸ hp))
      have hcur2 : VM2.mem cur = some { o with Marked := false } := store_same _ _ _
      have hread : cursor_read VM2 (.next cur) = .ok o.Next := cursor_read_next hcur2 rfl
      have hch2 : chain VM2.mem o.Next L :=
        chain_congr L _ (fun q hq => by rw [hsameL q hq]) h2
      obtain ⟨VM1, hrun, post⟩ := vm_sweep_loop_spec L fuel VM2 (.next cur) o.Next hread hch2
        (fun q hq => by cases hq; exact haL) hlen
      have hfil : (cur :: L).filter (fun p => marked VM.mem p) =
          cur :: L.filter (fun p => marked VM2.mem p) := by
        rw [List.filter_cons_of_pos (by simp [hmk1])]
        congr 1
        apply List.filter_congr
        intro p hp
        rw [marked_congr (hsameL p hp)]
      have hcnt : (cur :: L).countP (fun p => !marked VM.mem p) =
          L.countP (fun p => !marked VM2.mem p) := by
        rw [List.countP_cons_of_neg _ _ (by simp [hmk1])]
        apply List.countP_congr
        intro p hp
        rw [marked_congr (hsameL p hp)]
      obtain ⟨oc, o1, ec, e1, hpay1, hmf1⟩ := post.cell cur rfl
      rw [hcur2] at ec
      cases ec
      refine ⟨VM1, ?_, ?_⟩
      · unfold vm_sweep_loop
        simp only [hr, h0, if_false, hm, hmk, Bool.not_true, Bool.false_eq_true]
        exact hrun
      · refine ⟨?_, ?_, ?_, ?_, ?_, ?_, ?_, ?_, ?_, ?_⟩
        · refine ⟨cur, ?_, ?_⟩
          · cases c with
            | first =>
              apply cursor_read_first
              rw [post.first (by simp)]
              simpa [cursor_read] using hr
            | next q =>
              obtain ⟨oq, hoq, hnx⟩ := cursor_read_next_inv hr
              have hq : q ∉ cur :: L := hc q rfl
              have hqc : q ≠ cur := fun e => hq (e ▸ List.mem_cons_self _ _)
              have hqL : q ∉ L := fun e => hq (List.mem_cons_of_mem _ e)
              refine cursor_read_next (o := oq) ?_ hnx
              rw [post.frame q hqL (by simpa using hqc.symm), hsame q hqc, hoq]
          · rw [hfil]
            obtain ⟨cur1, hr1, hc1⟩ := post.registry
            obtain ⟨o3, e3, hn3⟩ := cursor_read_next_inv hr1
            refine ⟨rfl, h0, ?_⟩
            rw [e3]
            show chain VM1.mem o3.Next _
            rw [hn3]
            exact hc1
        · intro p hp hmp
          rcases List.mem_cons.1 hp with e | hpL
          · subst e
            exact ⟨o, o1, hm, e1, by rw [hpay1]; rfl, by rw [hmf1]⟩
          · obtain ⟨o2, o3, e2, e3, hpay, hmf⟩ :=
              post.kept p hpL (by rw [marked_congr (hsameL p hpL)]; exact hmp)
            exact ⟨o2, o3, by rw [← hsameL p hpL]; exact e2, e3, hpay, hmf⟩
        · intro p hp hmp
          rcases List.mem_cons.1 hp with e | hpL
          · rw [e, hmk1] at hmp; cases hmp
          · exact post.freed p hpL (by rw [marked_congr (hsameL p hpL)]; exact hmp)
        · intro p hp _
          have hpcur : p ≠ cur := fun e => hp (e ▸ List.mem_cons_self _ _)
          have hpL : p ∉ L := fun e => hp (List.mem_cons_of_mem _ e)
          rw [post.frame p hpL (by simpa using hpcur.symm), hsame p hpcur]
        · intro q hq
          have hq1 : q ∉ cur :: L := hc q hq
          have hqc : q ≠ cur := fun e => hq1 (e ▸ List.mem_cons_self _ _)
          have hqL : q ∉ L := fun e => hq1 (List.mem_cons_of_mem _ e)
          subst hq
          obtain ⟨oq, hoq, _⟩ := cursor_read_next_inv hr
          refine ⟨oq, oq, hoq, ?_, rfl, rfl⟩
          rw [post.frame q hqL (by simpa using hqc.symm), hsame q hqc, hoq]
        · intro _
          rw [post.first (by simp)]
        · rw [post.count, hcnt]
        · rw [post.stack]
        · rw [post.size]
        · rw [post.max]

/-! ## The collection -/

theorem edge_congr {m m1 : Nat → Option object} {q : Nat}
    (h : (m1 q).map payload = (m q).map payload) (c : Nat) : edge m1 q c ↔ edge m q c := by
  cases h1 : m1 q with
  | none =>
    cases h0 : m q with
    | none => simp [edge, h1, h0]
    | some o => simp [h1, h0] at h
  | some o1 =>
    cases h0 : m q with
    | none => simp [h1, h0] at h
    | some o =>
      simp only [h1, h0, Option.map_some', Option.some.injEq, payload, Prod.mk.injEq] at h
      obtain ⟨e1, _, e3, e4⟩ := h
      simp [edge, h1, h0, e1, e3, e4]

theorem vm_gc_spec {VM : vm} {L : List Nat} (h : wf VM L) {fuel : Nat}
    (hf : L.length < fuel) :
    ∃ VM1 L1, vm_gc fuel VM = .ok VM1 ∧ gc_post VM L VM1 L1 := by
  obtain ⟨m1, r1, g1, mk1, fr1⟩ := vm_mark_all_spec h hf
  have hch1 : chain m1 VM.FirstObject L :=
    chain_congr L _ (fun q _ => grows_next g1 q) h.registry
  obtain ⟨VM2, r2, post⟩ :=
    vm_sweep_loop_spec L fuel { VM with mem := m1 } .first VM.FirstObject rfl hch1
      (fun q hq => by cases hq) hf
  obtain ⟨cur1, hr1, hc1⟩ := post.registry
  simp only [cursor_read, Except.ok.injEq] at hr1
  subst hr1
  have hlive : ∀ p, p ∈ L.filter (fun p => marked m1 p) ↔ Reachable VM p := by
    intro p
    rw [List.mem_filter]
    constructor
    · rintro ⟨hp, hm⟩
      exact (mk1 p hp).1 hm
    · intro hp
      have hpL := reachable_in h hp
      exact ⟨hpL, (mk1 p hpL).2 hp⟩
  have hkept : ∀ p, p ∈ L.filter (fun p => marked m1 p) →
      (VM2.mem p).map payload = (VM.mem p).map payload := by
    intro p hp
    obtain ⟨hpL, hm⟩ := List.mem_filter.1 hp
    obtain ⟨o, o1, e, e1, hpay, _⟩ := post.kept p hpL hm
    have e' : m1 p = some o := e
    rw [← grows_payload g1 p, e1, e']
    simp [hpay]
  have hfreed : ∀ p, p ∈ L → p ∉ L.filter (fun p => marked m1 p) → VM2.mem p = none := by
    intro p hpL hp
    apply post.freed p hpL
    cases hm : marked m1 p with
    | false => rfl
    | true => exact absurd (List.mem_filter.2 ⟨hpL, hm⟩) hp
  have hframe : ∀ p, p ∉ L → VM2.mem p = VM.mem p := by
    intro p hp
    rw [post.frame p hp (by simp)]
    exact fr1 p hp
  have hcount : VM2.NumObjects =
      VM.NumObjects - ((L.length - (L.filter (fun p => marked m1 p)).length : Nat) : Int) := by
    rw [post.count]
    have e1 := List.length_eq_countP_add_countP (fun p => marked m1 p) L
    rw [List.countP_eq_length_filter] at e1
    have e2 : L.countP (fun p => !marked m1 p) = L.countP (fun a => ¬marked m1 a = true) := by
      apply List.countP_congr
      intro p _
      simp
    show VM.NumObjects - ((L.countP (fun p => !marked m1 p) : Nat) : Int) = _
    rw [e2]
    congr 2
    omega
  have hedge : ∀ a b, edge VM2.mem a b → edge VM.mem a b := by
    intro a b hab
    by_cases haL : a ∈ L
    · by_cases ha1 : a ∈ L.filter (fun p => marked m1 p)
      · exact (edge_congr (hkept a ha1) b).1 hab
      · simp [edge, hfreed a haL ha1] at hab
    · simpa [edge, hframe a haL] using hab
  have hstack : VM2.Stack = VM.Stack := post.stack
  have hsize : VM2.StackSize = VM.StackSize := post.size
  have hroots : roots VM2 = roots VM := by simp [roots, hstack, hsize]
  have hreach : ∀ p, Reachable VM2 p ↔ Reachable VM p := by
    intro p
    constructor
    · rintro ⟨r, hr, hp⟩
      refine ⟨r, hroots ▸ hr, ?_⟩
      exact Relation.ReflTransGen.mono hedge hp
    · rintro ⟨r, hr, hp⟩
      refine ⟨r, hroots.symm ▸ hr, ?_⟩
      induction hp with
      | refl => exact Relation.ReflTransGen.refl
      | tail hab hbc ih =>
        refine Relation.ReflTransGen.tail ih ?_
        have hb := (hlive _).2 ⟨r, hr, hab⟩
        exact (edge_congr (hkept _ hb) _).2 hbc
  let VM3 : vm := { VM2 with
    MaxObjects :=
      if VM2.NumObjects = 0 then INITIAL_GC_THRESHOLD else int32 (VM2.NumObjects * 2) }
  have hrun : vm_gc fuel VM = .ok VM3 := by
    have r2' : vm_sweep fuel { VM with mem := m1 } = .ok VM2 := r2
    simp only [vm_gc, r1, r2']
  have hreach3 : ∀ p, Reachable VM3 p ↔ Reachable VM p := hreach
  refine ⟨VM3, L.filter (fun p => marked m1 p), hrun, ?_⟩
  refine ⟨?_, List.filter_sublist _, hlive, hkept, hfreed, hframe, hcount, rfl, hstack, hsize,
    hreach3⟩
  refine ⟨hc1, ?_, ?_, (congrArg List.length hstack).trans h.stack_len, hsize ▸ h.size_lo, hsize ▸ h.size_hi, ?_⟩
  · intro p hp
    obtain ⟨hpL, hm⟩ := List.mem_filter.1 hp
    obtain ⟨o, o1, _, e1, _, hmf⟩ := post.kept p hpL hm
    show marked VM2.mem p = false
    simp [marked, e1, hmf]
  · intro p hp c hc
    have hpr := (hlive p).1 hp
    have hc0 : edge VM.mem p c := hedge p c hc
    obtain ⟨r, hr, hpath⟩ := hpr
    exact (hlive c).2 ⟨r, hr, Relation.ReflTransGen.tail hpath hc0⟩
  · intro r hr
    have hr0 : r ∈ roots VM := hroots ▸ hr
    exact (hlive r).2 ⟨r, hr0, Relation.ReflTransGen.refl⟩

/-! ## Fuel -/

theorem vm_mark_mono :
    ∀ (fuel fuel1 : Nat) (m : Nat → Option object) (p : Nat) (m1 : Nat → Option object),
      fuel ≤ fuel1 → vm_mark fuel m p = .ok m1 → vm_mark fuel1 m p = .ok m1
  | 0, _, _, _, _, _, h => by simp [vm_mark] at h
  | _ + 1, 0, _, _, _, hle, _ => by omega
  | f + 1, f1 + 1, m, p, m1, hle, h => by
    unfold vm_mark at h ⊢
    cases hm : m p with
    | none => simp [hm] at h
    | some o =>
      simp only [hm] at h ⊢
      by_cases hmk : o.Marked = true
      · simpa [hmk] using h
      · simp only [hmk, if_false] at h ⊢
        by_cases ht : o.Type_ = .OBJ_PAIR
        · simp only [if_pos ht] at h ⊢
          cases h2 : vm_mark f (store m p { o with Marked := true }) o.Head with
          | error e => simp [h2] at h
          | ok m2 =>
            simp only [h2] at h
            rw [vm_mark_mono f f1 _ _ m2 (by omega) h2]
            exact vm_mark_mono f f1 _ _ m1 (by omega) h
        · simpa [if_neg ht] using h

theorem vm_mark_from_mono (fuel fuel1 : Nat) (hle : fuel ≤ fuel1) (S : List Nat) :
    ∀ (k i : Nat) (m m1 : Nat → Option object),
      vm_mark_from fuel S k i m = .ok m1 → vm_mark_from fuel1 S k i m = .ok m1
  | 0, _, _, _, h => h
  | k + 1, i, m, m1, h => by
    unfold vm_mark_from at h ⊢
    cases hg : S[i]? with
    | none => simp [hg] at h
    | some p =>
      simp only [hg] at h ⊢
      cases h2 : vm_mark fuel m p with
      | error e => simp [h2] at h
      | ok m2 =>
        simp only [h2] at h
        rw [vm_mark_mono fuel fuel1 _ _ m2 hle h2]
        exact vm_mark_from_mono fuel fuel1 hle S k (i + 1) m2 m1 h

theorem vm_sweep_loop_mono :
    ∀ (fuel fuel1 : Nat) (VM : vm) (c : cursor) (VM1 : vm),
      fuel ≤ fuel1 → vm_sweep_loop fuel VM c = .ok VM1 → vm_sweep_loop fuel1 VM c = .ok VM1
  | 0, _, _, _, _, _, h => by simp [vm_sweep_loop] at h
  | _ + 1, 0, _, _, _, hle, _ => by omega
  | f + 1, f1 + 1, VM, c, VM1, hle, h => by
    unfold vm_sweep_loop at h ⊢
    cases hr : cursor_read VM c with
    | error e => simp [hr] at h
    | ok cur =>
      simp only [hr] at h ⊢
      by_cases h0 : cur = 0
      · simpa [h0] using h
      · simp only [h0, if_false] at h ⊢
        cases hm : VM.mem cur with
        | none => simp [hm] at h
        | some o =>
          simp only [hm] at h ⊢
          cases hmk : o.Marked with
          | false =>
            simp only [hmk, Bool.not_false, if_true] at h ⊢
            cases hw : cursor_write VM o.Next c with
            | error e => simp [hw] at h
            | ok VMw =>
              simp only [hw] at h ⊢
              exact vm_sweep_loop_mono f f1 _ _ _ (by omega) h
          | true =>
            simp only [hmk, Bool.not_true, Bool.false_eq_true, if_false] at h ⊢
            exact vm_sweep_loop_mono f f1 _ _ _ (by omega) h

theorem vm_gc_mono {fuel fuel1 : Nat} (hle : fuel ≤ fuel1) {VM VM1 : vm}
    (h : vm_gc fuel VM = .ok VM1) : vm_gc fuel1 VM = .ok VM1 := by
  unfold vm_gc vm_mark_all vm_sweep at h ⊢
  cases h1 : vm_mark_from fuel VM.Stack VM.StackSize.toNat 0 VM.mem with
  | error e => simp [h1] at h
  | ok m1 =>
    simp only [h1] at h
    simp only [vm_mark_from_mono fuel fuel1 hle _ _ _ _ _ h1]
    cases h2 : vm_sweep_loop fuel { VM with mem := m1 } .first with
    | error e => simp [h2] at h
    | ok VM2 =>
      simp only [h2] at h
      simp only [vm_sweep_loop_mono fuel fuel1 _ _ _ hle h2]
      exact h

/-- A collection that returns on a well-formed VM returns the state described
by `gc_post`, whatever fuel it was given. -/
theorem vm_gc_post_of_ok {VM : vm} {L : List Nat} (h : wf VM L) {fuel : Nat} {VM1 : vm}
    (hr : vm_gc fuel VM = .ok VM1) : ∃ L1, gc_post VM L VM1 L1 := by
  obtain ⟨VM2, L1, hr2, post⟩ := vm_gc_spec h (Nat.lt_succ_self (max fuel L.length) |>.trans_le' (le_max_right _ _))
  have := vm_gc_mono (le_trans (le_max_left fuel L.length) (Nat.le_succ _)) hr
  rw [this] at hr2
  cases hr2
  exact ⟨L1, post⟩

/-! ## Stack operations and allocation -/

theorem wf_shape {VM : vm} {L : List Nat} (h : wf VM L) : shape VM :=
  ⟨h.stack_len, h.size_lo, h.size_hi⟩

theorem take_set_same (S : List Nat) (n v : Nat) : (S.set n v).take n = S.take n := by
  apply List.ext_getElem?
  intro i
  rw [List.getElem?_take, List.getElem?_take]
  split
  · rw [List.getElem?_set_ne (by omega)]
  · rfl

theorem take_set_succ (S : List Nat) (n v : Nat) (h : n < S.length) :
    (S.set n v).take (n + 1) = S.take n ++ [v] := by
  rw [List.take_succ, List.getElem?_set_self h, take_set_same]
  rfl

theorem take_pred (S : List Nat) (n : Nat) (h : n < S.length) :
    S.take (n + 1) = S.take n ++ [S[n]] := by
  rw [List.take_succ, List.getElem?_eq_getElem h]
  rfl

/-- The push `vm_stack_push` below capacity: the value is appended to the root set. -/
theorem vm_stack_push_ok {VM : vm} (hs : shape VM) (v : Nat) (h : VM.StackSize < STACK_MAX) :
    vm_stack_push VM v = .ok { VM with
        Stack := VM.Stack.set VM.StackSize.toNat v
        StackSize := VM.StackSize + 1 } ∧
      roots { VM with Stack := VM.Stack.set VM.StackSize.toNat v
                      StackSize := VM.StackSize + 1 } = roots VM ++ [v] := by
  obtain ⟨h1, h2, _⟩ := hs
  have hn : VM.StackSize.toNat < VM.Stack.length := by rw [h1]; omega
  constructor
  · simp [vm_stack_push, h, h2, hn]
  · have e : (VM.StackSize + 1).toNat = VM.StackSize.toNat + 1 := by omega
    simp only [roots, e]
    exact take_set_succ _ _ _ hn

theorem vm_stack_push_full {VM : vm} (v : Nat) (h : ¬ VM.StackSize < STACK_MAX) :
    vm_stack_push VM v = .error .stack_overflow := by
  simp [vm_stack_push, h]

/-- The pop `vm_pop` on a non-empty stack: the last root is returned and dropped. -/
theorem vm_pop_ok {VM : vm} (hs : shape VM) (h : 0 < VM.StackSize) :
    ∃ v, vm_pop VM = .ok (v, { VM with StackSize := VM.StackSize - 1 }) ∧
      roots VM = roots { VM with StackSize := VM.StackSize - 1 } ++ [v] := by
  obtain ⟨h1, _, h3⟩ := hs
  have hn : (VM.StackSize - 1).toNat < VM.Stack.length := by rw [h1]; omega
  refine ⟨VM.Stack[(VM.StackSize - 1).toNat], ?_, ?_⟩
  · unfold vm_pop
    rw [if_pos h, List.getElem?_eq_getElem hn]
  · have e : VM.StackSize.toNat = (VM.StackSize - 1).toNat + 1 := by omega
    simp only [roots]
    rw [e]
    exact take_pred _ _ hn

theorem vm_pop_empty {VM : vm} (h : ¬ 0 < VM.StackSize) :
    vm_pop VM = .error .stack_underflow := by
  simp [vm_pop, h]

theorem wf_new : wf vm_new [] := by
  refine ⟨rfl, ?_, ?_, List.length_replicate _ _, le_refl _, Int.ofNat_zero_le _, ?_⟩
  · intro p hp; simp at hp
  · intro p hp; simp at hp
  · intro r hr
    have hr1 : r ∈ List.take 0 vm_new.Stack := hr
    simp at hr1

/-- Registering a fresh object in front of the registry keeps the VM
well-formed, provided its fields and the roots are registered. -/
theorem wf_cons {VM VM1 : vm} {L : List Nat} (h : wf VM L) {p : Nat} (o : object)
    (hp0 : p ≠ 0) (hfresh : VM.mem p = none)
    (hmem : VM1.mem = store VM.mem p o) (hfirst : VM1.FirstObject = p)
    (hnext : o.Next = VM.FirstObject) (hmk : o.Marked = false)
    (hfld : o.Type_ = .OBJ_PAIR → o.Head ∈ p :: L ∧ o.Tail ∈ p :: L)
    (hshape : shape VM1) (hroots : ∀ r, r ∈ roots VM1 → r ∈ p :: L) :
    wf VM1 (p :: L) := by
  have hpL : p ∉ L := fun hin => by
    obtain ⟨_, o1, e⟩ := chain_alloc L _ p h.registry hin
    rw [hfresh] at e; cases e
  have hsame : ∀ q, q ∈ L → VM1.mem q = VM.mem q := by
    intro q hq
    rw [hmem, store_other _ _ (fun e => hpL (by rw [← e]; exact hq))]
  have hp1 : VM1.mem p = some o := by rw [hmem, store_same]
  refine ⟨?_, ?_, ?_, hshape.1, hshape.2.1, hshape.2.2, hroots⟩
  · refine ⟨hfirst, by rw [hfirst]; exact hp0, ?_⟩
    rw [hfirst, hp1]
    show chain VM1.mem o.Next L
    rw [hnext]
    exact chain_congr L _ (fun q hq => by rw [hsame q hq]) h.registry
  · intro q hq
    rcases List.mem_cons.1 hq with e | hqL
    · subst e; simp [marked, hp1, hmk]
    · rw [marked_congr (hsame q hqL)]; exact h.unmarked q hqL
  · intro q hq c hc
    rcases List.mem_cons.1 hq with e | hqL
    · subst e
      simp only [edge, hp1] at hc
      rcases hc.2 with e | e
      · rw [e]; exact (hfld hc.1).1
      · rw [e]; exact (hfld hc.1).2
    · apply List.mem_cons_of_mem
      apply h.fields q hqL c
      simpa [edge, hsame q hqL] using hc

theorem gate_spec {VM : vm} {L : List Nat} (h : wf VM L) {fuel : Nat} (hf : L.length < fuel) :
    ∃ VMg Lg, gate fuel VM = .ok VMg ∧ gate_post VM L VMg Lg := by
  by_cases hc : VM.NumObjects = VM.MaxObjects
  · obtain ⟨VM1, L1, hr, post⟩ := vm_gc_spec h hf
    refine ⟨VM1, L1, by simp [gate, hc, hr], ?_⟩
    exact ⟨post.wf1, post.sub, fun p hp => (post.live p).2 hp, post.kept, post.freed,
      post.frame, post.count, post.stack, post.size, post.reach, fun hne => absurd hc hne,
      fun _ => post⟩
  · refine ⟨VM, L, by simp [gate, hc], ?_⟩
    exact ⟨h, List.Sublist.refl _, fun p hp => reachable_in h hp, fun _ _ => rfl,
      fun p hp hn => absurd hp hn, fun _ _ => rfl, by simp, rfl, rfl, fun _ => Iff.rfl,
      fun _ => ⟨rfl, rfl⟩, fun he => absurd he hc⟩

theorem gate_post_of_ok {VM : vm} {L : List Nat} (h : wf VM L) {fuel : Nat} {VMg : vm}
    (hr : gate fuel VM = .ok VMg) : ∃ Lg, gate_post VM L VMg Lg := by
  obtain ⟨VM2, Lg, hr2, post⟩ := gate_spec h (Nat.lt_succ_of_le (le_max_right fuel L.length))
  have e : gate (max fuel L.length + 1) VM = .ok VMg := by
    unfold gate at hr ⊢
    by_cases hc : VM.NumObjects = VM.MaxObjects
    · simp only [hc, if_true] at hr ⊢
      exact vm_gc_mono (le_trans (le_max_left fuel L.length) (Nat.le_succ _)) hr
    · simpa [hc] using hr
  rw [e] at hr2
  cases hr2
  exact ⟨Lg, post⟩

theorem vm_new_object_eq (fuel : Nat) (VM : vm) (Ty : object_type) (p : Nat) :
    vm_new_object fuel VM Ty p =
      match gate fuel VM with
      | .error e => .error e
      | .ok VM1 =>
        .ok (p,
          { VM1 with
            mem := store VM1.mem p
              { Type_ := Ty, AsInt := 0, Head := 0, Tail := 0, Marked := false,
                Next := VM1.FirstObject }
            FirstObject := p
            NumObjects := VM1.NumObjects + 1 }) := rfl

theorem vm_push_int_core {VM VMg : vm} {L Lg : List Nat} {fuel : Nat}
    (hg : gate fuel VM = .ok VMg) (post : gate_post VM L VMg Lg) (v : Int) {p : Nat}
    (hp0 : p ≠ 0) (hfresh : VMg.mem p = none) :
      (VM.StackSize < STACK_MAX → ∃ VM1, vm_push_int fuel VM v p = .ok VM1 ∧
        alloc_post VMg Lg p
          { Type_ := .OBJ_INT, AsInt := v, Head := 0, Tail := 0, Marked := false,
            Next := VMg.FirstObject } VM1 ∧
        roots VM1 = roots VM ++ [p] ∧ VM1.StackSize = VM.StackSize + 1) ∧
      (¬ VM.StackSize < STACK_MAX → vm_push_int fuel VM v p = .error .stack_overflow) := by
  refine ⟨?_, ?_⟩
  · intro hlt
    let VM2 : vm := { VMg with
      mem := store VMg.mem p
        { Type_ := .OBJ_INT, AsInt := v, Head := 0, Tail := 0, Marked := false,
          Next := VMg.FirstObject }
      FirstObject := p
      NumObjects := VMg.NumObjects + 1 }
    have hs2 : shape VM2 := (wf_shape post.wf1 : shape VMg)
    have hlt2 : VM2.StackSize < STACK_MAX := by
      show VMg.StackSize < STACK_MAX
      rw [post.size]; exact hlt
    obtain ⟨hpush, hroots⟩ := vm_stack_push_ok hs2 p hlt2
    refine ⟨{ VM2 with Stack := VM2.Stack.set VM2.StackSize.toNat p
                       StackSize := VM2.StackSize + 1 }, ?_, ?_, ?_, ?_⟩
    · rw [← hpush]
      simp only [vm_push_int, vm_new_object_eq, hg, store_same, store_store]
    · have hr2 : roots VM2 = roots VM := by
        show List.take VMg.StackSize.toNat VMg.Stack = _
        rw [post.stack, post.size]; rfl
      refine ⟨?_, rfl, rfl, rfl, rfl⟩
      refine wf_cons post.wf1 _ hp0 hfresh rfl rfl rfl rfl (by simp) ?_ ?_
      · obtain ⟨e1, e2, e3⟩ := hs2
        refine ⟨by simpa using e1, ?_, ?_⟩
        · show 0 ≤ VMg.StackSize + 1
          have := post.wf1.size_lo; omega
        · show VMg.StackSize + 1 ≤ STACK_MAX
          have : VMg.StackSize < STACK_MAX := hlt2
          omega
      · intro r hr
        rw [hroots, hr2] at hr
        rcases List.mem_append.1 hr with hr1 | hr1
        · exact List.mem_cons_of_mem _
            (post.live r ⟨r, hr1, Relation.ReflTransGen.refl⟩)
        · simp at hr1; rw [hr1]; exact List.mem_cons_self _ _
    · rw [hroots]
      show List.take VMg.StackSize.toNat VMg.Stack ++ [p] = _
      rw [post.stack, post.size]; rfl
    · show VMg.StackSize + 1 = _
      rw [post.size]
  · intro hge
    have hge2 : ¬ VMg.StackSize < STACK_MAX := by rw [post.size]; exact hge
    simp only [vm_push_int, vm_new_object_eq, hg, store_same]
    exact vm_stack_push_full p hge2

theorem vm_push_pair_core {VM VMg : vm} {L Lg : List Nat} {fuel : Nat}
    (hg : gate fuel VM = .ok VMg) (post : gate_post VM L VMg Lg) {p : Nat}
    (hp0 : p ≠ 0) (hfresh : VMg.mem p = none) :
      (2 ≤ VM.StackSize → ∃ rest a b VM1, roots VM = rest ++ [a, b] ∧
        vm_push_pair fuel VM p = .ok (p, VM1) ∧
        alloc_post VMg Lg p
          { Type_ := .OBJ_PAIR, AsInt := 0, Head := a, Tail := b, Marked := false,
            Next := VMg.FirstObject } VM1 ∧
        roots VM1 = rest ++ [p] ∧ VM1.StackSize = VM.StackSize - 1) ∧
      (VM.StackSize < 2 → vm_push_pair fuel VM p = .error .stack_underflow) := by
  have hsg : shape VMg := wf_shape post.wf1
  have hsize := post.size
  refine ⟨?_, ?_⟩
  · intro h2
    let o0 : object := object.mk .OBJ_PAIR 0 0 0 false VMg.FirstObject
    let VMn : vm := vm.mk VMg.Stack VMg.StackSize p (VMg.NumObjects + 1) VMg.MaxObjects
      (store VMg.mem p o0)
    have hsn : shape VMn := hsg
    obtain ⟨b, hpop1, hr1⟩ := vm_pop_ok hsn (show 0 < VMg.StackSize by omega)
    let VM3 : vm := vm.mk VMg.Stack (VMg.StackSize - 1) p (VMg.NumObjects + 1) VMg.MaxObjects
      (store VMn.mem p { o0 with Tail := b })
    have hs3 : shape VM3 := by
      obtain ⟨e1, e2, e3⟩ := hsg
      exact ⟨e1, by show 0 ≤ VMg.StackSize - 1; omega, by show VMg.StackSize - 1 ≤ _; omega⟩
    obtain ⟨a, hpop2, hr2⟩ := vm_pop_ok hs3 (show 0 < VMg.StackSize - 1 by omega)
    let VM5 : vm := vm.mk VMg.Stack (VMg.StackSize - 1 - 1) p (VMg.NumObjects + 1)
      VMg.MaxObjects (store VM3.mem p { o0 with Tail := b, Head := a })
    have hs5 : shape VM5 := by
      obtain ⟨e1, e2, e3⟩ := hsg
      exact ⟨e1, by show 0 ≤ VMg.StackSize - 1 - 1; omega,
        by show VMg.StackSize - 1 - 1 ≤ _; omega⟩
    have hlt5 : VM5.StackSize < STACK_MAX := by
      obtain ⟨_, _, e3⟩ := hsg
      show VMg.StackSize - 1 - 1 < _; omega
    obtain ⟨hpush, hr3⟩ := vm_stack_push_ok hs5 p hlt5
    have hrootsg : roots VMg = roots VM := by
      simp only [roots, post.stack, post.size]
    have hrn : roots VMn = roots VM := hrootsg
    have hroots : roots VM = roots VM5 ++ [a, b] := by
      rw [← hrn, hr1]
      have e : roots { VMn with StackSize := VMn.StackSize - 1 } = roots VM3 := rfl
      rw [e, hr2]
      have e5 : roots { VM3 with StackSize := VM3.StackSize - 1 } = roots VM5 := rfl
      rw [e5]
      simp
    refine ⟨roots VM5, a, b,
      { VM5 with Stack := VM5.Stack.set VM5.StackSize.toNat p, StackSize := VM5.StackSize + 1 },
      hroots, ?_, ?_, hr3, ?_⟩
    · simp only [vm_push_pair, vm_new_object_eq, hg]
      have e1 : vm_pop VMn = .ok (b, { VMn with StackSize := VMn.StackSize - 1 }) := hpop1
      simp only [e1, store_same]
      have e3 : vm_pop VM3 = .ok (a, { VM3 with StackSize := VM3.StackSize - 1 }) := hpop2
      simp only [e3, store_same]
      show (match vm_stack_push VM5 p with
        | Except.error e => (Except.error e : Except fault (Nat × vm))
        | Except.ok VM6 => Except.ok (p, VM6)) = _
      rw [hpush]
    · have hin : ∀ r, r ∈ roots VM → r ∈ Lg := fun r hr =>
        post.live r ⟨r, hr, Relation.ReflTransGen.refl⟩
      refine ⟨?_, ?_, rfl, rfl, rfl⟩
      · refine wf_cons post.wf1 (object.mk .OBJ_PAIR 0 a b false VMg.FirstObject) hp0 hfresh ?_
          rfl rfl rfl ?_ ?_ ?_
        · show store (store (store VMg.mem p o0) p _) p _ = _
          rw [store_store, store_store]
        · intro _
          constructor
          · exact List.mem_cons_of_mem _ (hin a (by rw [hroots]; simp))
          · exact List.mem_cons_of_mem _ (hin b (by rw [hroots]; simp))
        · obtain ⟨e1, e2, e3⟩ := hsg
          refine ⟨by simpa using e1, ?_, ?_⟩
          · show 0 ≤ VMg.StackSize - 1 - 1 + 1; omega
          · show VMg.StackSize - 1 - 1 + 1 ≤ _; omega
        · intro r hr
          rw [hr3] at hr
          rcases List.mem_append.1 hr with hr1 | hr1
          · exact List.mem_cons_of_mem _ (hin r (by rw [hroots]; simp [hr1]))
          · simp at hr1; rw [hr1]; exact List.mem_cons_self _ _
      · show store (store (store VMg.mem p o0) p _) p _ = _
        rw [store_store, store_store]
    · show VMg.StackSize - 1 - 1 + 1 = _
      rw [hsize]; omega
  · intro hlt
    simp only [vm_push_pair, vm_new_object_eq, hg]
    by_cases h0 : 0 < VMg.StackSize
    · let o0 : object := object.mk .OBJ_PAIR 0 0 0 false VMg.FirstObject
      let VMn : vm := vm.mk VMg.Stack VMg.StackSize p (VMg.NumObjects + 1) VMg.MaxObjects
        (store VMg.mem p o0)
      have hsn : shape VMn := hsg
      obtain ⟨b, hpop1, _⟩ := vm_pop_ok hsn h0
      have e1 : vm_pop VMn = .ok (b, { VMn with StackSize := VMn.StackSize - 1 }) := hpop1
      simp only [e1, store_same]
      rw [vm_pop_empty (by show ¬ 0 < VMg.StackSize - 1; omega)]
    · rw [vm_pop_empty (by exact h0)]

theorem gate_of_push_int {fuel : Nat} {VM VM1 : vm} {v : Int} {p : Nat}
    (h : vm_push_int fuel VM v p = .ok VM1) : ∃ VMg, gate fuel VM = .ok VMg := by
  cases hg : gate fuel VM with
  | error e => simp [vm_push_int, vm_new_object_eq, hg] at h
  | ok VMg => exact ⟨VMg, rfl⟩

theorem gate_of_push_pair {fuel : Nat} {VM VM1 : vm} {p r : Nat}
    (h : vm_push_pair fuel VM p = .ok (r, VM1)) : ∃ VMg, gate fuel VM = .ok VMg := by
  cases hg : gate fuel VM with
  | error e => simp [vm_push_pair, vm_new_object_eq, hg] at h
  | ok VMg => exact ⟨VMg, rfl⟩

/-! ## Invariant of the reached states -/

theorem inv_new : inv vm_new [] :=
  ⟨wf_new, rfl, fun p o h => by simp [vm_new] at h⟩

theorem inv_gc {VM VM1 : vm} {L L1 : List Nat} (h : inv VM L) (post : gc_post VM L VM1 L1) :
    inv VM1 L1 := by
  have hlen := post.sub.length_le
  have hcount : VM1.NumObjects = L1.length := by
    rw [post.count, h.count]; omega
  refine ⟨post.wf1, hcount, ?_⟩
  intro p o hp
  by_contra hn
  by_cases hpL : p ∈ L
  · rw [post.freed p hpL hn] at hp; cases hp
  · rw [post.frame p hpL] at hp
    exact hpL (h.owned p o hp)

theorem inv_gate {VM VMg : vm} {L Lg : List Nat} (h : inv VM L)
    (post : gate_post VM L VMg Lg) : inv VMg Lg := by
  by_cases hc : VM.NumObjects = VM.MaxObjects
  · exact inv_gc h (post.ran hc)
  · obtain ⟨e1, e2⟩ := post.idle hc
    subst e1 e2
    exact h

theorem inv_alloc {VMg VM1 : vm} {Lg : List Nat} {p : Nat} {o : object} (h : inv VMg Lg)
    (post : alloc_post VMg Lg p o VM1) : inv VM1 (p :: Lg) := by
  refine ⟨post.wf1, ?_, ?_⟩
  · rw [post.count, h.count]; simp
  · intro q oq hq
    rw [post.mem] at hq
    by_cases e : q = p
    · rw [e]; exact List.mem_cons_self _ _
    · rw [store_other _ _ e] at hq
      exact List.mem_cons_of_mem _ (h.owned q oq hq)

theorem vm_pop_inv {VM VM1 : vm} {r : Nat} (h : vm_pop VM = .ok (r, VM1)) :
    0 < VM.StackSize ∧ VM1 = { VM with StackSize := VM.StackSize - 1 } := by
  unfold vm_pop at h
  by_cases h0 : VM.StackSize > 0
  · rw [if_pos h0] at h
    cases hg : VM.Stack[(VM.StackSize - 1).toNat]? with
    | none => rw [hg] at h; cases h
    | some v =>
      rw [hg] at h
      simp only [Except.ok.injEq, Prod.mk.injEq] at h
      exact ⟨h0, h.2.symm⟩
  · rw [if_neg h0] at h; cases h

theorem wf_pop {VM : vm} {L : List Nat} (h : wf VM L) (h0 : 0 < VM.StackSize) :
    wf { VM with StackSize := VM.StackSize - 1 } L := by
  obtain ⟨v, _, hr⟩ := vm_pop_ok (wf_shape h) h0
  refine ⟨h.registry, h.unmarked, h.fields, h.stack_len, ?_, ?_, ?_⟩
  · show 0 ≤ VM.StackSize - 1; omega
  · show VM.StackSize - 1 ≤ _
    have := h.size_hi; omega
  · intro r hrr
    apply h.roots_in
    rw [hr]
    exact List.mem_append_left _ hrr

/-- Every state reached from `vm_new` satisfies the invariant. -/
theorem reach_inv {s : vm} (h : Reach s) : ∃ L, inv s L := by
  induction h with
  | new => exact ⟨[], inv_new⟩
  | @push_int s s1 fuel v p _ hfresh hrun ih =>
    obtain ⟨L, hinv⟩ := ih
    obtain ⟨VMg, hg⟩ := gate_of_push_int hrun
    obtain ⟨Lg, post⟩ := gate_post_of_ok hinv.wf0 hg
    obtain ⟨hok, herr⟩ := vm_push_int_core hg post v hfresh.1 (hfresh.2 VMg hg)
    have hig := inv_gate hinv post
    by_cases hs : s.StackSize < STACK_MAX
    · obtain ⟨VM1, hr1, ap, _⟩ := hok hs
      rw [hr1] at hrun
      cases hrun
      exact ⟨p :: Lg, inv_alloc hig ap⟩
    · rw [herr hs] at hrun; cases hrun
  | @pop s s1 r _ hrun ih =>
    obtain ⟨L, hinv⟩ := ih
    obtain ⟨h0, e⟩ := vm_pop_inv hrun
    subst e
    exact ⟨L, wf_pop hinv.wf0 h0, hinv.count, hinv.owned⟩
  | @push_pair s s1 fuel p r _ hfresh hrun ih =>
    obtain ⟨L, hinv⟩ := ih
    obtain ⟨VMg, hg⟩ := gate_of_push_pair hrun
    obtain ⟨Lg, post⟩ := gate_post_of_ok hinv.wf0 hg
    obtain ⟨hok, herr⟩ := vm_push_pair_core hg post hfresh.1 (hfresh.2 VMg hg)
    have hig := inv_gate hinv post
    by_cases hs : 2 ≤ s.StackSize
    · obtain ⟨rest, a, b, VM1, _, hr1, ap, _⟩ := hok hs
      rw [hr1] at hrun
      cases hrun
      exact ⟨p :: Lg, inv_alloc hig ap⟩
    · rw [herr (by omega)] at hrun; cases hrun
  | @gc s s1 fuel _ hrun ih =>
    obtain ⟨L, hinv⟩ := ih
    obtain ⟨L1, post⟩ := vm_gc_post_of_ok hinv.wf0 hrun
    exact ⟨L1, inv_gc hinv post⟩

/-! ## Soundness of marking on arbitrary heaps -/

/-- Soundness of `vm_mark` on any heap: a call that returns has only set mark
bits, and only on objects reachable from its argument. -/
theorem vm_mark_sound :
    ∀ (fuel : Nat) (m : Nat → Option object) (p : Nat) (m1 : Nat → Option object),
      vm_mark fuel m p = .ok m1 →
      grows m m1 ∧
        ∀ q, marked m1 q = true → marked m q = false → Relation.ReflTransGen (edge m) p q
  | 0, _, _, _, h => by simp [vm_mark] at h
  | fuel + 1, m, p, m1, h => by
    unfold vm_mark at h
    cases ho : m p with
    | none => simp [ho] at h
    | some o =>
      simp only [ho] at h
      by_cases hm : o.Marked = true
      · simp only [hm, if_true, Except.ok.injEq] at h
        subst h
        exact ⟨grows_refl m, fun q h1 h2 => by rw [h1] at h2; cases h2⟩
      · have hm0 : o.Marked = false := by simpa using hm
        simp only [hm0, Bool.false_eq_true, if_false] at h
        have g1 := grows_store ho hm0
        have only_p : ∀ q, marked (store m p { o with Marked := true }) q = true →
            marked m q = false → q = p := by
          intro q h1 h2
          by_contra hne
          rw [show marked (store m p { o with Marked := true }) q = marked m q by
            simp [marked, store_other _ _ hne]] at h1
          rw [h1] at h2; cases h2
        by_cases ht : o.Type_ = .OBJ_PAIR
        · simp only [if_pos ht] at h
          have eH : edge m p o.Head := by simp [edge, ho, ht]
          have eT : edge m p o.Tail := by simp [edge, ho, ht]
          cases h2 : vm_mark fuel (store m p { o with Marked := true }) o.Head with
          | error e => simp [h2] at h
          | ok m2 =>
            simp only [h2] at h
            obtain ⟨g2, rc2⟩ := vm_mark_sound fuel _ _ m2 h2
            obtain ⟨g3, rc3⟩ := vm_mark_sound fuel _ _ m1 h
            have g12 := grows_trans g1 g2
            refine ⟨grows_trans g12 g3, ?_⟩
            intro q h3 h0
            cases hq2 : marked m2 q with
            | false =>
              exact Relation.ReflTransGen.head eT ((grows_reach g12 _ _).1 (rc3 q h3 hq2))
            | true =>
              cases hq1 : marked (store m p { o with Marked := true }) q with
              | false =>
                exact Relation.ReflTransGen.head eH ((grows_reach g1 _ _).1 (rc2 q hq2 hq1))
              | true => rw [only_p q hq1 h0]
        · simp only [if_neg ht, Except.ok.injEq] at h
          subst h
          exact ⟨g1, fun q h1 h0 => by rw [only_p q h1 h0]⟩

theorem vm_mark_from_sound (fuel : Nat) (S : List Nat) :
    ∀ (k i : Nat) (m m1 : Nat → Option object),
      vm_mark_from fuel S k i m = .ok m1 →
      grows m m1 ∧
        ∀ q, marked m1 q = true → marked m q = false → reach_from m ((S.drop i).take k) q
  | 0, _, m, m1, h => by
    simp only [vm_mark_from, Except.ok.injEq] at h
    subst h
    exact ⟨grows_refl m, fun q h1 h2 => by rw [h1] at h2; cases h2⟩
  | k + 1, i, m, m1, h => by
    unfold vm_mark_from at h
    cases hg : S[i]? with
    | none => simp [hg] at h
    | some p =>
      simp only [hg] at h
      obtain ⟨hi, hp⟩ := List.getElem?_eq_some.1 hg
      have hdrop : (S.drop i).take (k + 1) = p :: (S.drop (i + 1)).take k := by
        rw [List.drop_eq_getElem_cons hi, List.take_succ_cons, hp]
      cases h2 : vm_mark fuel m p with
      | error e => simp [h2] at h
      | ok m2 =>
        simp only [h2] at h
        obtain ⟨g1, rc1⟩ := vm_mark_sound fuel m p m2 h2
        obtain ⟨g2, rc2⟩ := vm_mark_from_sound fuel S k (i + 1) m2 m1 h
        refine ⟨grows_trans g1 g2, ?_⟩
        rw [hdrop]
        intro q h3 h0
        cases hq1 : marked m2 q with
        | false =>
          obtain ⟨r, hr, hpath⟩ := rc2 q h3 hq1
          exact ⟨r, List.mem_cons_of_mem _ hr, (grows_reach g1 _ _).1 hpath⟩
        | true => exact ⟨p, List.mem_cons_self _ _, rc1 q hq1 h0⟩

/-! ## Consecutive collections -/

theorem chain_cons {m : Nat → Option object} {first : Nat} {L : List Nat}
    (h : chain m first L) {p : Nat} (o : object) (hp0 : p ≠ 0) (hfresh : m p = none)
    (hnext : o.Next = first) : chain (store m p o) p (p :: L) := by
  have hpL : p ∉ L := fun hin => by
    obtain ⟨_, o1, e⟩ := chain_alloc L _ p h hin
    rw [hfresh] at e; cases e
  refine ⟨rfl, hp0, ?_⟩
  rw [store_same]
  show chain (store m p o) o.Next L
  rw [hnext]
  exact chain_congr L _
    (fun q hq => by rw [store_other _ _ (fun e => hpL (by rw [← e]; exact hq))]) h

theorem vm_gc_iter_spec {fuel : Nat} :
    ∀ (n : Nat) (VM : vm) (L : List Nat), wf VM L → L.length < fuel →
      ∃ VM1 L1, vm_gc_iter fuel n VM = .ok VM1 ∧ wf VM1 L1 ∧ L1.Sublist L ∧
        (∀ q, Reachable VM q → q ∈ L1 ∧ (VM1.mem q).map payload = (VM.mem q).map payload) ∧
        (∀ q, Reachable VM1 q ↔ Reachable VM q)
  | 0, VM, L, h, _ =>
    ⟨VM, L, rfl, h, List.Sublist.refl _, fun _ hq => ⟨reachable_in h hq, rfl⟩, fun _ => Iff.rfl⟩
  | n + 1, VM, L, h, hf => by
    obtain ⟨VM1, L1, hr, post⟩ := vm_gc_spec h hf
    have hlen := post.sub.length_le
    obtain ⟨VM2, L2, hr2, hwf2, hsub2, hkeep2, hreach2⟩ :=
      vm_gc_iter_spec n VM1 L1 post.wf1 (lt_of_le_of_lt hlen hf)
    refine ⟨VM2, L2, by simp only [vm_gc_iter, hr]; exact hr2, hwf2, hsub2.trans post.sub, ?_, ?_⟩
    · intro q hq
      have hq1 := (post.reach q).2 hq
      obtain ⟨hin, hpay⟩ := hkeep2 q hq1
      exact ⟨hin, by rw [hpay, post.kept q ((post.live q).2 hq)]⟩
    · intro q
      rw [hreach2 q, post.reach q]

/-! ## The test scenarios -/

theorem chain_of_check {m : Nat → Option object} :
    ∀ (L : List Nat) (p : Nat), chain_check m p L = true → chain m p L
  | [], p, h => by simpa [chain_check] using h
  | q :: L, p, h => by
    simp only [chain_check, Bool.and_eq_true, beq_iff_eq, bne_iff_ne] at h
    obtain ⟨⟨h1, h2⟩, h3⟩ := h
    refine ⟨h1, h2, ?_⟩
    cases hm : m p with
    | none => simp [hm] at h3
    | some o =>
      simp only [hm] at h3 ⊢
      exact chain_of_check L _ h3

theorem wf_of_check {VM : vm} {L : List Nat} (h : wf_check VM L = true) : wf VM L := by
  simp only [wf_check, Bool.and_eq_true, List.all_eq_true, decide_eq_true_eq] at h
  obtain ⟨⟨⟨⟨⟨⟨h1, h2⟩, h3⟩, h4⟩, h5⟩, h6⟩, h7⟩ := h
  refine ⟨chain_of_check _ _ h1, ?_, ?_, h4, h5, h6, ?_⟩
  · intro p hp
    simpa using h2 p hp
  · intro p hp c hc
    have := h3 p hp
    cases hm : VM.mem p with
    | none => simp [edge, hm] at hc
    | some o =>
      simp only [edge, hm] at hc
      simp only [hm, hc.1, bne_self_eq_false, Bool.false_or, Bool.and_eq_true,
        List.contains_eq_any_beq, List.any_eq_true, beq_iff_eq, exists_eq_right] at this
      rcases hc.2 with e | e
      · obtain ⟨x, hx, e1⟩ := this.1
        rw [e, e1]; exact hx
      · obtain ⟨x, hx, e1⟩ := this.2
        rw [e, e1]; exact hx
  · intro r hr
    simpa using h7 r hr

theorem malloc_fresh_of_check {fuel : Nat} {VM : vm} {p : Nat}
    (h : fresh_check fuel VM p = true) : malloc_fresh fuel VM p := by
  simp only [fresh_check, Bool.and_eq_true, bne_iff_ne] at h
  refine ⟨h.1, ?_⟩
  intro VM1 hg
  have h2 := h.2
  rw [hg] at h2
  simpa using h2

theorem state_of_ok {r : Except fault vm} (h : is_ok r = true) : r = .ok (state_of r) := by
  cases r with
  | error e => simp [is_ok] at h
  | ok s => rfl

theorem pair_state_ok {r : Except fault (Nat × vm)} (h : is_ok r = true) :
    ∃ P, r = .ok (P, pair_state r) := by
  cases r with
  | error e => simp [is_ok] at h
  | ok s => exact ⟨s.1, rfl⟩

theorem reach_push_int {s : vm} (fuel : Nat) (v : Int) (p : Nat) (hs : Reach s)
    (hf : fresh_check fuel s p = true) (hr : is_ok (vm_push_int fuel s v p) = true) :
    Reach (state_of (vm_push_int fuel s v p)) :=
  Reach.push_int fuel v p hs (malloc_fresh_of_check hf) (state_of_ok hr)

theorem reach_push_pair {s : vm} (fuel : Nat) (p : Nat) (hs : Reach s)
    (hf : fresh_check fuel s p = true) (hr : is_ok (vm_push_pair fuel s p) = true) :
    Reach (pair_state (vm_push_pair fuel s p)) := by
  obtain ⟨P, hP⟩ := pair_state_ok hr
  exact Reach.push_pair fuel p P hs (malloc_fresh_of_check hf) hP

theorem reach_pop {s : vm} (hs : Reach s) (hr : is_ok (vm_pop s) = true) :
    Reach (pair_state (vm_pop s)) := by
  obtain ⟨P, hP⟩ := pair_state_ok hr
  exact Reach.pop P hs hP

theorem reach_gc {s : vm} (fuel : Nat) (hs : Reach s) (hr : is_ok (vm_gc fuel s) = true) :
    Reach (state_of (vm_gc fuel s)) :=
  Reach.gc fuel hs (state_of_ok hr)

set_option maxRecDepth 100000 in
theorem reach_test1 : Reach test1_state :=
  reach_push_int 9 2 2 (reach_push_int 9 1 1 Reach.new (by decide) (by decide))
    (by decide) (by decide)

set_option maxRecDepth 100000 in
theorem reach_two_pairs : Reach two_pairs_state :=
  reach_push_pair 9 6
    (reach_push_int 9 4 5
      (reach_push_int 9 3 4
        (reach_push_pair 9 3 reach_test1 (by decide) (by decide))
        (by decide) (by decide))
      (by decide) (by decide))
    (by decide) (by decide)

set_option maxRecDepth 100000 in
theorem reach_test3 : Reach test3_state :=
  reach_push_pair 9 7 reach_two_pairs (by decide) (by decide)

set_option maxRecDepth 100000 in
theorem reach_threshold : Reach threshold_state :=
  reach_push_int 9 2 2
    (reach_gc 9 (reach_push_int 9 1 1 Reach.new (by decide) (by decide)) (by decide))
    (by decide) (by decide)

set_option maxRecDepth 100000 in
/-- The assertions of `test1` to `test5`: the live counts after `vm_gc`. -/
theorem test_assertions :
    (state_of (vm_gc 9 test1_state)).NumObjects = 2 ∧
    (state_of (vm_gc 9 test2_state)).NumObjects = 0 ∧
    (state_of (vm_gc 9 test3_state)).NumObjects = 7 ∧
    (state_of (vm_gc 9 test4_state)).NumObjects = 4 ∧
    (state_of (vm_gc 9 test5_state)).NumObjects = 0 ∧
    is_ok (vm_gc 9 test1_state) = true ∧ is_ok (vm_gc 9 test2_state) = true ∧
    is_ok (vm_gc 9 test3_state) = true ∧ is_ok (vm_gc 9 test4_state) = true ∧
    is_ok (vm_gc 9 test5_state) = true := by
  decide

set_option maxRecDepth 100000 in
theorem wf_test1 : wf test1_state [2, 1] := wf_of_check (by decide)

set_option maxRecDepth 100000 in
theorem wf_two_pairs : wf two_pairs_state [6, 5, 4, 3, 2, 1] := wf_of_check (by decide)

set_option maxRecDepth 100000 in
theorem wf_test5 : wf test5_state [6, 5, 4, 3, 2, 1] := wf_of_check (by decide)

set_option maxRecDepth 100000 in
theorem wf_threshold : wf threshold_state [2, 1] := wf_of_check (by decide)

set_option maxRecDepth 100000 in
theorem threshold_facts :
    fresh_check 9 threshold_state 3 = true ∧ 2 ≤ threshold_state.StackSize ∧
      threshold_state.NumObjects = threshold_state.MaxObjects := by
  decide

set_option maxRecDepth 100000 in
theorem test1_facts :
    fresh_check 9 test1_state 3 = true ∧ is_ok (vm_gc 9 test1_state) = true ∧
      (state_of (vm_gc 9 test1_state)).NumObjects = 2 ∧
      (state_of (vm_gc 9 test1_state)).MaxObjects = 4 := by
  decide

set_option maxRecDepth 100000 in
theorem two_pairs_facts : fresh_check 9 two_pairs_state 7 = true := by
  decide

theorem reach_rewire_of_reach {s : vm} (h : Reach s) : ReachRewire s := by
  induction h with
  | new => exact ReachRewire.new
  | push_int fuel v p _ hf hr ih => exact ReachRewire.push_int fuel v p ih hf hr
  | pop r _ hr ih => exact ReachRewire.pop r ih hr
  | push_pair fuel p r _ hf hr ih => exact ReachRewire.push_pair fuel p r ih hf hr
  | gc fuel _ hr ih => exact ReachRewire.gc fuel ih hr

/-- Overwriting the `Head` and `Tail` of a registered pair by registered
objects keeps the invariant. -/
theorem inv_rewire {VM : vm} {L : List Nat} (h : inv VM L) {A : Nat} {o : object}
    (hA : VM.mem A = some o) (hd tl : Nat) (hhd : hd ∈ L) (htl : tl ∈ L) :
    inv { VM with mem := store VM.mem A { o with Head := hd, Tail := tl } } L := by
  have hAL := h.owned A o hA
  have hnext : ∀ q, (store VM.mem A { o with Head := hd, Tail := tl } q).map (fun x => x.Next) =
      (VM.mem q).map (fun x => x.Next) := by
    intro q
    by_cases e : q = A
    · subst e; simp [store_same, hA]
    · rw [store_other _ _ e]
  have hmark : ∀ q, marked (store VM.mem A { o with Head := hd, Tail := tl }) q =
      marked VM.mem q := by
    intro q
    by_cases e : q = A
    · subst e; simp [marked, store_same, hA]
    · simp [marked, store_other _ _ e]
  refine ⟨⟨chain_congr L _ (fun q _ => hnext q) h.wf0.registry, ?_, ?_, h.wf0.stack_len,
    h.wf0.size_lo, h.wf0.size_hi, h.wf0.roots_in⟩, h.count, ?_⟩
  · intro q hq
    show marked (store VM.mem A _) q = false
    rw [hmark q]; exact h.wf0.unmarked q hq
  · intro q hq c hc
    by_cases e : q = A
    · subst e
      have hc1 : edge (store VM.mem q { o with Head := hd, Tail := tl }) q c := hc
      simp only [edge, store_same] at hc1
      rcases hc1.2 with e1 | e1
      · rw [e1]; exact hhd
      · rw [e1]; exact htl
    · apply h.wf0.fields q hq c
      have hc1 : edge (store VM.mem A { o with Head := hd, Tail := tl }) q c := hc
      simpa [edge, store_other _ _ e] using hc1
  · intro q oq hq
    have hq1 : store VM.mem A { o with Head := hd, Tail := tl } q = some oq := hq
    by_cases e : q = A
    · rw [e]; exact hAL
    · rw [store_other _ _ e] at hq1
      exact h.owned q oq hq1

/-- Every state reached with rewiring satisfies the invariant. -/
theorem reach_rewire_inv {s : vm} (h : ReachRewire s) : ∃ L, inv s L := by
  induction h with
  | new => exact ⟨[], inv_new⟩
  | @push_int s s1 fuel v p _ hfresh hrun ih =>
    obtain ⟨L, hinv⟩ := ih
    obtain ⟨VMg, hg⟩ := gate_of_push_int hrun
    obtain ⟨Lg, post⟩ := gate_post_of_ok hinv.wf0 hg
    obtain ⟨hok, herr⟩ := vm_push_int_core hg post v hfresh.1 (hfresh.2 VMg hg)
    have hig := inv_gate hinv post
    by_cases hs : s.StackSize < STACK_MAX
    · obtain ⟨VM1, hr1, ap, _⟩ := hok hs
      rw [hr1] at hrun
      cases hrun
      exact ⟨p :: Lg, inv_alloc hig ap⟩
    · rw [herr hs] at hrun; cases hrun
  | @pop s s1 r _ hrun ih =>
    obtain ⟨L, hinv⟩ := ih
    obtain ⟨h0, e⟩ := vm_pop_inv hrun
    subst e
    exact ⟨L, wf_pop hinv.wf0 h0, hinv.count, hinv.owned⟩
  | @push_pair s s1 fuel p r _ hfresh hrun ih =>
    obtain ⟨L, hinv⟩ := ih
    obtain ⟨VMg, hg⟩ := gate_of_push_pair hrun
    obtain ⟨Lg, post⟩ := gate_post_of_ok hinv.wf0 hg
    obtain ⟨hok, herr⟩ := vm_push_pair_core hg post hfresh.1 (hfresh.2 VMg hg)
    have hig := inv_gate hinv post
    by_cases hs : 2 ≤ s.StackSize
    · obtain ⟨rest, a, b, VM1, _, hr1, ap, _⟩ := hok hs
      rw [hr1] at hrun
      cases hrun
      exact ⟨p :: Lg, inv_alloc hig ap⟩
    · rw [herr (by omega)] at hrun; cases hrun
  | @gc s s1 fuel _ hrun ih =>
    obtain ⟨L, hinv⟩ := ih
    obtain ⟨L1, post⟩ := vm_gc_post_of_ok hinv.wf0 hrun
    exact ⟨L1, inv_gc hinv post⟩
  | @set_head s A B o b _ hA ht hB ih =>
    obtain ⟨L, hinv⟩ := ih
    refine ⟨L, ?_⟩
    have hT : o.Tail ∈ L :=
      (hinv.wf0.fields A (hinv.owned A o hA) o.Tail (by simp [edge, hA, ht]))
    have := inv_rewire hinv hA B o.Tail (hinv.owned B b hB) hT
    simpa [set_head, hA] using this
  | @set_tail s A B o b _ hA ht hB ih =>
    obtain ⟨L, hinv⟩ := ih
    refine ⟨L, ?_⟩
    have hH : o.Head ∈ L :=
      (hinv.wf0.fields A (hinv.owned A o hA) o.Head (by simp [edge, hA, ht]))
    have := inv_rewire hinv hA o.Head B hH (hinv.owned B b hB)
    simpa [set_tail, hA] using this

/-- Teardown from a state that satisfies the invariant. -/
theorem vm_free_spec {VM : vm} {L : List Nat} (h : inv VM L) {fuel : Nat}
    (hf : L.length < fuel) :
    ∃ VM1, vm_free fuel VM = .ok VM1 ∧ VM1.NumObjects = 0 ∧ VM1.FirstObject = 0 ∧
      VM1.StackSize = 0 ∧ ∀ q, VM1.mem q = none := by
  have hwf0 : wf { VM with StackSize := 0 } L := by
    refine ⟨h.wf0.registry, h.wf0.unmarked, h.wf0.fields, h.wf0.stack_len, le_refl _,
      Int.ofNat_zero_le _, ?_⟩
    intro r hr
    have hr1 : r ∈ List.take 0 VM.Stack := hr
    simp at hr1
  have hinv0 : inv { VM with StackSize := 0 } L := ⟨hwf0, h.count, h.owned⟩
  obtain ⟨VM1, L1, hr, post⟩ := vm_gc_spec hwf0 hf
  have hinv1 := inv_gc hinv0 post
  have hnil : L1 = [] := by
    apply List.eq_nil_iff_forall_not_mem.2
    intro q hq
    obtain ⟨r, hr1, _⟩ := (post.live q).1 hq
    have hr2 : r ∈ List.take 0 VM.Stack := hr1
    simp at hr2
  subst hnil
  refine ⟨VM1, hr, by simpa using hinv1.count, hinv1.wf0.registry, post.size, ?_⟩
  intro q
  cases hq : VM1.mem q with
  | none => rfl
  | some o => exact absurd (hinv1.owned q o hq) (List.not_mem_nil q)

/-! ## Marked sets -/

/-- From all marks false, the objects marked by a closed marking are those
reachable from the starting points `rs`. -/
theorem marked_iff_reach {m m1 : Nat → Option object} {rs : List Nat}
    (h0 : ∀ q, marked m q = false)
    (hroot : ∀ r, r ∈ rs → marked m1 r = true)
    (hcl : ∀ q, marked m1 q = true → marked m q = false → ∀ c, edge m q c → marked m1 c = true)
    (hsound : ∀ q, marked m1 q = true → marked m q = false → reach_from m rs q) (q : Nat) :
    marked m1 q = true ↔ reach_from m rs q := by
  constructor
  · intro hq
    exact hsound q hq (h0 q)
  · rintro ⟨r, hr, hpath⟩
    induction hpath with
    | refl => exact hroot r hr
    | tail _ hbc ih => exact hcl _ ih (h0 _) _ hbc

/-- Two heaps that grew from the same heap and have the same marked objects
are equal. -/
theorem grows_ext {m m1 m2 : Nat → Option object} (g1 : grows m m1) (g2 : grows m m2)
    (h : ∀ q, marked m1 q = marked m2 q) : m1 = m2 := by
  funext q
  have hq := h q
  rcases g1 q with e1 | ⟨o1, e1, f1, k1⟩
  · rcases g2 q with e2 | ⟨o2, e2, f2, k2⟩
    · rw [e1, e2]
    · simp [marked, e1, e2, k2, f2] at hq
  · rcases g2 q with e2 | ⟨o2, e2, f2, k2⟩
    · simp [marked, e1, e2, k1, f1] at hq
    · rw [e1] at e2
      cases e2
      rw [k1, k2]

/-! ## Iterations and frame of the sweep -/

theorem shrinks_refl (m : Nat → Option object) : shrinks m m :=
  fun _ o1 h => ⟨o1, h, rfl⟩

theorem shrinks_trans {m m1 m2 : Nat → Option object} (h : shrinks m m1)
    (h1 : shrinks m1 m2) : shrinks m m2 := by
  intro q o2 hq
  obtain ⟨o1, e1, p1⟩ := h1 q o2 hq
  obtain ⟨o, e, p⟩ := h q o1 e1
  exact ⟨o, e, p1.trans p⟩

theorem shrinks_of_grows {m m1 : Nat → Option object} (g : grows m m1) : shrinks m m1 := by
  intro q o1 hq
  rcases g q with e | ⟨o, e, _, k⟩
  · exact ⟨o1, by rw [← e]; exact hq, rfl⟩
  · rw [k] at hq
    cases hq
    exact ⟨o, e, rfl⟩

theorem shrinks_store {m : Nat → Option object} {p : Nat} {o : object} (o1 : object)
    (h : m p = some o) (hp : payload o1 = payload o) : shrinks m (store m p o1) := by
  intro q oq hq
  by_cases e : q = p
  · subst e
    rw [store_same] at hq
    cases hq
    exact ⟨o, h, hp⟩
  · rw [store_other _ _ e] at hq
    exact ⟨oq, hq, rfl⟩

theorem shrinks_release (m : Nat → Option object) (p : Nat) : shrinks m (release m p) := by
  intro q oq hq
  by_cases e : q = p
  · subst e
    rw [release_same] at hq
    cases hq
  · rw [release_other _ e] at hq
    exact ⟨oq, hq, rfl⟩

/-- Whatever the state, a sweep that returns has changed neither the stack
nor the contents of the objects it kept. -/
theorem vm_sweep_loop_frame :
    ∀ (fuel : Nat) (VM : vm) (c : cursor) (VM1 : vm),
      vm_sweep_loop fuel VM c = .ok VM1 →
      VM1.Stack = VM.Stack ∧ VM1.StackSize = VM.StackSize ∧ shrinks VM.mem VM1.mem
  | 0, _, _, _, h => by simp [vm_sweep_loop] at h
  | fuel + 1, VM, c, VM1, h => by
    unfold vm_sweep_loop at h
    cases hr : cursor_read VM c with
    | error e => simp [hr] at h
    | ok cur =>
      simp only [hr] at h
      by_cases h0 : cur = 0
      · simp only [h0, if_true, Except.ok.injEq] at h
        subst h
        exact ⟨rfl, rfl, shrinks_refl _⟩
      · simp only [h0, if_false] at h
        cases hm : VM.mem cur with
        | none => simp [hm] at h
        | some o =>
          simp only [hm] at h
          cases hmk : o.Marked with
          | false =>
            simp only [hmk, Bool.not_false, if_true] at h
            cases c with
            | first =>
              simp only [cursor_write] at h
              obtain ⟨e1, e2, e3⟩ := vm_sweep_loop_frame fuel _ _ VM1 h
              exact ⟨e1, e2, shrinks_trans (shrinks_release _ _) e3⟩
            | next q =>
              simp only [cursor_write] at h
              cases hq : VM.mem q with
              | none => simp [hq] at h
              | some oq =>
                simp only [hq] at h
                obtain ⟨e1, e2, e3⟩ := vm_sweep_loop_frame fuel _ _ VM1 h
                refine ⟨e1, e2, ?_⟩
                exact shrinks_trans (shrinks_trans
                  (shrinks_store { oq with Next := o.Next } hq rfl)
                  (shrinks_release _ _)) e3
          | true =>
            simp only [hmk, Bool.not_true, Bool.false_eq_true, if_false] at h
            obtain ⟨e1, e2, e3⟩ := vm_sweep_loop_frame fuel _ _ VM1 h
            exact ⟨e1, e2, shrinks_trans (shrinks_store { o with Marked := false } hm rfl) e3⟩

theorem chain_next_eq {m m1 : Nat → Option object} :
    ∀ (L : List Nat) (p p1 : Nat), chain m p L → chain m1 p1 L →
      p = p1 ∧ ∀ q, q ∈ L → (m q).map (fun o => o.Next) = (m1 q).map (fun o => o.Next)
  | [], p, p1, h, h1 => by
    have e : p = 0 := h
    have e1 : p1 = 0 := h1
    exact ⟨by rw [e, e1], fun q hq => by simp at hq⟩
  | a :: L, p, p1, h, h1 => by
    obtain ⟨e0, _, h2⟩ := h
    obtain ⟨e1, _, h3⟩ := h1
    refine ⟨e0.trans e1.symm, ?_⟩
    rw [e0] at h2
    rw [e1] at h3
    cases hm : m a with
    | none => simp [hm] at h2
    | some o =>
      cases hm1 : m1 a with
      | none => simp [hm1] at h3
      | some o1 =>
        simp only [hm] at h2
        simp only [hm1] at h3
        obtain ⟨e, ih⟩ := chain_next_eq L _ _ h2 h3
        intro q hq
        rcases List.mem_cons.1 hq with hqa | hq1
        · rw [hqa, hm, hm1]
          simp [e]
        · exact ih q hq1

theorem object_ext {o o1 : object} (hp : payload o1 = payload o)
    (hm : o1.Marked = o.Marked) (hn : o1.Next = o.Next) : o1 = o := by
  cases o
  cases o1
  simp only [payload, Prod.mk.injEq] at hp
  simp only at hm hn
  simp [hp, hm, hn]

/-! ## More test scenarios -/

theorem reach_rewire_set_tail {s : vm} (A B : Nat) (h : ReachRewire s)
    (hc : rewire_check s A B = true) : ReachRewire (set_tail s A B) := by
  unfold rewire_check at hc
  cases hA : s.mem A with
  | none => simp [hA] at hc
  | some o =>
    cases hB : s.mem B with
    | none => simp [hA, hB] at hc
    | some b =>
      simp only [hA, hB, beq_iff_eq] at hc
      exact ReachRewire.set_tail A B o b h hA hc hB

theorem reach_rewire_set_head {s : vm} (A B : Nat) (h : ReachRewire s)
    (hc : rewire_check s A B = true) : ReachRewire (set_head s A B) := by
  unfold rewire_check at hc
  cases hA : s.mem A with
  | none => simp [hA] at hc
  | some o =>
    cases hB : s.mem B with
    | none => simp [hA, hB] at hc
    | some b =>
      simp only [hA, hB, beq_iff_eq] at hc
      exact ReachRewire.set_head A B o b h hA hc hB

/-- In a state reached from `vm_new` no mark bit is set. -/
theorem reach_marks_false {s : vm} (h : Reach s) (q : Nat) : marked s.mem q = false := by
  obtain ⟨L, hinv⟩ := reach_inv h
  cases hq : s.mem q with
  | none => simp [marked, hq]
  | some o => exact hinv.wf0.unmarked q (hinv.owned q o hq)

set_option maxRecDepth 100000 in
theorem reach_rewire_test4 : ReachRewire test4_state :=
  reach_rewire_set_tail 6 3
    (reach_rewire_set_tail 3 6 (reach_rewire_of_reach reach_two_pairs) (by decide))
    (by decide)

set_option maxRecDepth 100000 in
theorem wf_test4 : wf test4_state [6, 5, 4, 3, 2, 1] := wf_of_check (by decide)

set_option maxRecDepth 100000 in
theorem test4_facts :
    test4_state.NumObjects = 6 ∧ is_ok (vm_gc 9 test4_state) = true := by
  decide

set_option maxRecDepth 100000 in
theorem test3_gc_ok : is_ok (vm_gc 9 test3_state) = true := by
  decide

set_option maxRecDepth 100000 in
theorem test1_swapped_facts :
    test1_swapped.mem = test1_state.mem ∧ shape test1_swapped ∧
      roots test1_swapped = [2, 1] ∧ roots test1_state = [1, 2] := by
  refine ⟨rfl, ⟨by decide, by decide, by decide⟩, by decide, by decide⟩

theorem int32_of_small {x : Int} (h1 : -2147483648 ≤ x) (h2 : x < 2147483648) :
    int32 x = x := by
  unfold int32
  omega

theorem mem_le_sum : ∀ (L : List Nat) (q : Nat), q ∈ L → q ≤ L.sum
  | [], q, h => by simp at h
  | a :: L, q, h => by
    rcases List.mem_cons.1 h with e | h1
    · rw [e, List.sum_cons]; omega
    · have := mem_le_sum L q h1
      rw [List.sum_cons]; omega

/-- A registry whose objects are all reachable loses nothing at the threshold
test. -/
theorem gate_full {VM VMg : vm} {L Lg : List Nat} (h : wf VM L)
    (post : gate_post VM L VMg Lg) (hfull : ∀ q, q ∈ L → Reachable VM q) : Lg = L := by
  have hsub : L ⊆ Lg := fun q hq => post.live q (hfull q hq)
  have hndL : L.Nodup := chain_nodup _ _ h.registry
  exact post.sub.eq_of_length_le (List.subperm_of_subset hndL hsub).length_le

/-- References between old objects are still there after an allocation. -/
theorem edge_alloc {VMg VM1 : vm} {Lg : List Nat} {p : Nat} {o : object}
    (ap : alloc_post VMg Lg p o VM1) (hfresh : VMg.mem p = none) {a b : Nat}
    (hab : edge VMg.mem a b) : edge VM1.mem a b := by
  have hap : a ≠ p := by
    intro e
    rw [e] at hab
    simp [edge, hfresh] at hab
  rw [ap.mem]
  simpa [edge, store_other _ _ hap] using hab

/-- An allocation whose new roots reach all the old roots keeps every
reachable object reachable. -/
theorem reachable_alloc {VMg VM1 : vm} {Lg : List Nat} {p : Nat} {o : object}
    (ap : alloc_post VMg Lg p o VM1) (hfresh : VMg.mem p = none)
    (hroots : ∀ r, r ∈ roots VMg → Reachable VM1 r) {q : Nat} (hq : Reachable VMg q) :
    Reachable VM1 q := by
  obtain ⟨r, hr, hpath⟩ := hq
  obtain ⟨r1, hr1, hpath1⟩ := hroots r hr
  refine ⟨r1, hr1, hpath1.trans ?_⟩
  exact Relation.ReflTransGen.mono (fun a b hab => edge_alloc ap hfresh hab) hpath

/-- A fresh address for a state that satisfies the invariant. -/
theorem fresh_address {VM : vm} {L : List Nat} (h : inv VM L) :
    L.sum + 1 ≠ 0 ∧ VM.mem (L.sum + 1) = none := by
  refine ⟨Nat.succ_ne_zero _, ?_⟩
  cases hm : VM.mem (L.sum + 1) with
  | none => rfl
  | some o =>
    have := mem_le_sum L _ (h.owned _ o hm)
    omega

/-- From a reached state whose registered objects are all reachable,
`vm_push_int` reaches such a state with one more object. -/
theorem full_push_int {s : vm} {L : List Nat} (hr : Reach s) (hinv : inv s L)
    (hfull : ∀ q, q ∈ L → Reachable s q) (hsz : s.StackSize < STACK_MAX) :
    ∃ s1 p, Reach s1 ∧ inv s1 (p :: L) ∧ s1.StackSize = s.StackSize + 1 ∧
      ∀ q, q ∈ p :: L → Reachable s1 q := by
  obtain ⟨VMg, Lg, hg, post⟩ := gate_spec hinv.wf0 (Nat.lt_succ_self L.length)
  have hL := gate_full hinv.wf0 post hfull
  subst hL
  have hig := inv_gate hinv post
  obtain ⟨hp0, hfresh⟩ := fresh_address hig
  have hmf : malloc_fresh (Lg.length + 1) s (Lg.sum + 1) :=
    ⟨hp0, fun VM1 h1 => by rw [hg] at h1; cases h1; exact hfresh⟩
  obtain ⟨s1, hrun, ap, hroots, hsize⟩ := (vm_push_int_core hg post 0 hp0 hfresh).1 hsz
  have hrg : roots VMg = roots s := by simp only [roots, post.stack, post.size]
  refine ⟨s1, Lg.sum + 1, Reach.push_int _ 0 _ hr hmf hrun, inv_alloc hig ap, hsize, ?_⟩
  intro q hq
  rcases List.mem_cons.1 hq with e | hqL
  · exact ⟨q, by rw [hroots, e]; simp, Relation.ReflTransGen.refl⟩
  · apply reachable_alloc ap hfresh _ ((post.reach q).2 (hfull q hqL))
    intro r hrr
    exact ⟨r, by rw [hroots, ← hrg]; exact List.mem_append_left _ hrr,
      Relation.ReflTransGen.refl⟩

/-- From a reached state whose registered objects are all reachable,
`vm_push_pair` reaches such a state with one more object. -/
theorem full_push_pair {s : vm} {L : List Nat} (hr : Reach s) (hinv : inv s L)
    (hfull : ∀ q, q ∈ L → Reachable s q) (hsz : 2 ≤ s.StackSize) :
    ∃ s1 p, Reach s1 ∧ inv s1 (p :: L) ∧ s1.StackSize = s.StackSize - 1 ∧
      ∀ q, q ∈ p :: L → Reachable s1 q := by
  obtain ⟨VMg, Lg, hg, post⟩ := gate_spec hinv.wf0 (Nat.lt_succ_self L.length)
  have hL := gate_full hinv.wf0 post hfull
  subst hL
  have hig := inv_gate hinv post
  obtain ⟨hp0, hfresh⟩ := fresh_address hig
  have hmf : malloc_fresh (Lg.length + 1) s (Lg.sum + 1) :=
    ⟨hp0, fun VM1 h1 => by rw [hg] at h1; cases h1; exact hfresh⟩
  obtain ⟨rest, a, b, s1, hrs, hrun, ap, hroots, hsize⟩ :=
    (vm_push_pair_core hg post hp0 hfresh).1 hsz
  have hrg : roots VMg = roots s := by simp only [roots, post.stack, post.size]
  have hp1 : s1.mem (Lg.sum + 1) =
      some (object.mk .OBJ_PAIR 0 a b false VMg.FirstObject) := by
    rw [ap.mem, store_same]
  have hproot : Lg.sum + 1 ∈ roots s1 := by rw [hroots]; simp
  refine ⟨s1, Lg.sum + 1, Reach.push_pair _ _ _ hr hmf hrun, inv_alloc hig ap, hsize, ?_⟩
  intro q hq
  rcases List.mem_cons.1 hq with e | hqL
  · exact ⟨q, by rw [e]; exact hproot, Relation.ReflTransGen.refl⟩
  · apply reachable_alloc ap hfresh _ ((post.reach q).2 (hfull q hqL))
    intro r hrr
    rw [hrg, hrs] at hrr
    rcases List.mem_append.1 hrr with h1 | h1
    · exact ⟨r, by rw [hroots]; exact List.mem_append_left _ h1, Relation.ReflTransGen.refl⟩
    · refine ⟨Lg.sum + 1, hproot, Relation.ReflTransGen.single ?_⟩
      simp only [List.mem_cons, List.mem_singleton, List.not_mem_nil, or_false] at h1
      unfold edge
      rw [hp1]
      exact ⟨rfl, h1⟩

/-- For every `k` the operations reach a state with one stack entry from which
all of its `2 * k + 1` registered objects are reachable: `vm_push_int`, then
`k` times `vm_push_int` and `vm_push_pair`. -/
theorem reach_full_chain : ∀ k : Nat, ∃ s L, Reach s ∧ inv s L ∧ L.length = 2 * k + 1 ∧
    s.StackSize = 1 ∧ ∀ q, q ∈ L → Reachable s q
  | 0 => by
    obtain ⟨s1, p, hr, hinv, hsz, hfull⟩ :=
      full_push_int Reach.new inv_new (fun q hq => by simp at hq)
        (show vm_new.StackSize < STACK_MAX by decide)
    exact ⟨s1, [p], hr, hinv, rfl, by rw [hsz]; rfl, hfull⟩
  | k + 1 => by
    obtain ⟨s, L, hr, hinv, hlen, hsz, hfull⟩ := reach_full_chain k
    obtain ⟨s1, p1, hr1, hinv1, hsz1, hfull1⟩ :=
      full_push_int hr hinv hfull (by rw [hsz]; decide)
    obtain ⟨s2, p2, hr2, hinv2, hsz2, hfull2⟩ :=
      full_push_pair hr1 hinv1 hfull1 (by rw [hsz1, hsz]; decide)
    refine ⟨s2, p2 :: p1 :: L, hr2, hinv2, ?_, ?_, hfull2⟩
    · simp only [List.length_cons, hlen]; omega
    · rw [hsz2, hsz1, hsz]; rfl

/-- A collection that all `2^30 + 1` objects of a reached state survive: the
32-bit product leaves `MaxObjects` negative. -/
theorem reach_overflow :
    ∃ s fuel s1 L1, Reach s ∧ vm_gc fuel s = .ok s1 ∧ Reach s1 ∧
      chain s1.mem s1.FirstObject L1 ∧ (L1.length : Int) = 1073741825 ∧
      s1.NumObjects = 1073741825 ∧ s1.MaxObjects = -2147483646 := by
  obtain ⟨s, L, hr, hinv, hlen, _, hfull⟩ := reach_full_chain 536870912
  obtain ⟨s1, L1, hrun, post⟩ := vm_gc_spec hinv.wf0 (Nat.lt_succ_self L.length)
  have hL : L1 = L := by
    have hsub : L ⊆ L1 := fun q hq => (post.live q).2 (hfull q hq)
    exact post.sub.eq_of_length_le
      (List.subperm_of_subset (chain_nodup _ _ hinv.wf0.registry) hsub).length_le
  subst hL
  have hinv1 := inv_gc hinv post
  have hn : s1.NumObjects = 1073741825 := by
    rw [hinv1.count, hlen]; rfl
  refine ⟨s, _, s1, L1, hr, hrun, Reach.gc _ hr hrun, post.wf1.registry, ?_, hn, ?_⟩
  · rw [hlen]; rfl
  · rw [post.max, hn]
    decide

/-! ## Collections of fewer than `2^30` survivors -/

theorem reach_of_bounded {s : vm} (h : ReachBounded s) : Reach s := by
  induction h with
  | new => exact Reach.new
  | push_int fuel v p _ hf hr _ ih => exact Reach.push_int fuel v p ih hf hr
  | pop r _ hr ih => exact Reach.pop r ih hr
  | push_pair fuel p r _ hf hr _ ih => exact Reach.push_pair fuel p r ih hf hr
  | gc fuel _ hr _ ih => exact Reach.gc fuel ih hr

/-- A collection that leaves fewer than `2^30` survivors leaves the count
below the new threshold. -/
theorem gc_strict {VM VM1 : vm} {L L1 : List Nat} (h : inv VM L) (post : gc_post VM L VM1 L1)
    (hb : VM1.NumObjects < 1073741824) : VM1.NumObjects < VM1.MaxObjects := by
  have hcount := (inv_gc h post).count
  have h0 : (0 : Int) ≤ L1.length := Int.ofNat_zero_le _
  rw [post.max]
  split
  · simp only [INITIAL_GC_THRESHOLD]; omega
  · rw [int32_of_small (by omega) (by omega)]
    omega

/-- The threshold test from a state whose count does not exceed the threshold
leaves the count strictly below the threshold, if the collection it may run
leaves fewer than `2^30` survivors. -/
theorem gate_strict {VM VMg : vm} {L Lg : List Nat} (h : inv VM L)
    (hle : VM.NumObjects ≤ VM.MaxObjects) (post : gate_post VM L VMg Lg)
    (hb : VM.NumObjects = VM.MaxObjects → VMg.NumObjects < 1073741824) :
    VMg.NumObjects < VMg.MaxObjects := by
  by_cases hc : VM.NumObjects = VM.MaxObjects
  · exact gc_strict h (post.ran hc) (hb hc)
  · obtain ⟨e1, _⟩ := post.idle hc
    subst e1
    exact lt_of_le_of_ne hle hc

/-- Invariant of the states reached without a collection of `2^30` or more
survivors. -/
theorem reach_bounded_inv {s : vm} (h : ReachBounded s) :
    ∃ L, inv s L ∧ s.NumObjects ≤ s.MaxObjects := by
  induction h with
  | new => exact ⟨[], inv_new, by decide⟩
  | @push_int s s1 fuel v p _ hfresh hrun hb ih =>
    obtain ⟨L, hinv, hle⟩ := ih
    obtain ⟨VMg, hg⟩ := gate_of_push_int hrun
    obtain ⟨Lg, post⟩ := gate_post_of_ok hinv.wf0 hg
    obtain ⟨hok, herr⟩ := vm_push_int_core hg post v hfresh.1 (hfresh.2 VMg hg)
    have hig := inv_gate hinv post
    by_cases hs : s.StackSize < STACK_MAX
    · obtain ⟨VM1, hr1, ap, _⟩ := hok hs
      rw [hr1] at hrun
      cases hrun
      have hst := gate_strict hinv hle post (fun hc => by
        have := hb hc
        rw [ap.count] at this
        omega)
      exact ⟨p :: Lg, inv_alloc hig ap, by rw [ap.count, ap.max]; omega⟩
    · rw [herr hs] at hrun; cases hrun
  | @pop s s1 r _ hrun ih =>
    obtain ⟨L, hinv, hle⟩ := ih
    obtain ⟨h0, e⟩ := vm_pop_inv hrun
    subst e
    exact ⟨L, ⟨wf_pop hinv.wf0 h0, hinv.count, hinv.owned⟩, hle⟩
  | @push_pair s s1 fuel p r _ hfresh hrun hb ih =>
    obtain ⟨L, hinv, hle⟩ := ih
    obtain ⟨VMg, hg⟩ := gate_of_push_pair hrun
    obtain ⟨Lg, post⟩ := gate_post_of_ok hinv.wf0 hg
    obtain ⟨hok, herr⟩ := vm_push_pair_core hg post hfresh.1 (hfresh.2 VMg hg)
    have hig := inv_gate hinv post
    by_cases hs : 2 ≤ s.StackSize
    · obtain ⟨rest, a, b, VM1, _, hr1, ap, _⟩ := hok hs
      rw [hr1] at hrun
      cases hrun
      have hst := gate_strict hinv hle post (fun hc => by
        have := hb hc
        rw [ap.count] at this
        omega)
      exact ⟨p :: Lg, inv_alloc hig ap, by rw [ap.count, ap.max]; omega⟩
    · rw [herr (by omega)] at hrun; cases hrun
  | @gc s s1 fuel _ hrun hb ih =>
    obtain ⟨L, hinv, hle⟩ := ih
    obtain ⟨L1, post⟩ := vm_gc_post_of_ok hinv.wf0 hrun
    exact ⟨L1, inv_gc hinv post, le_of_lt (gc_strict hinv post hb)⟩

theorem reach_bounded_push_int {s : vm} (fuel : Nat) (v : Int) (p : Nat)
    (hs : ReachBounded s) (hf : fresh_check fuel s p = true)
    (hr : is_ok (vm_push_int fuel s v p) = true)
    (hb : bound_check s (state_of (vm_push_int fuel s v p)) = true) :
    ReachBounded (state_of (vm_push_int fuel s v p)) := by
  refine ReachBounded.push_int fuel v p hs (malloc_fresh_of_check hf) (state_of_ok hr) ?_
  intro hc
  simpa [bound_check, hc] using hb

theorem reach_bounded_gc {s : vm} (fuel : Nat) (hs : ReachBounded s)
    (hr : is_ok (vm_gc fuel s) = true)
    (hb : (state_of (vm_gc fuel s)).NumObjects < 1073741824) :
    ReachBounded (state_of (vm_gc fuel s)) :=
  ReachBounded.gc fuel hs (state_of_ok hr) hb

set_option maxRecDepth 100000 in
theorem reach_bounded_threshold : ReachBounded threshold_state :=
  reach_bounded_push_int 9 2 2
    (reach_bounded_gc 9
      (reach_bounded_push_int 9 1 1 ReachBounded.new (by decide) (by decide) (by decide))
      (by decide) (by decide))
    (by decide) (by decide) (by decide)

/-! ## The claims -/

/-- C1 (no false collection).  In a well-formed VM (all mark bits false, every
root and every `Head`/`Tail` of a registered pair registered), with fuel
above the registry length: any number `n + 1` of consecutive `vm_gc` calls
returns, and every object reachable from the roots at the start is still in
the registry, with its contents, at the end; likewise for the collection
that `vm_new_object` runs when the count equals the threshold. -/
theorem no_false_collection {VM : vm} {L : List Nat} (h : wf VM L) {fuel : Nat}
    (hf : L.length < fuel) :
    (∀ n, ∃ VM1 L1, vm_gc_iter fuel (n + 1) VM = .ok VM1 ∧
      chain VM1.mem VM1.FirstObject L1 ∧
      ∀ q, Reachable VM q → q ∈ L1 ∧ (VM1.mem q).map payload = (VM.mem q).map payload) ∧
    (∀ Ty p, VM.NumObjects = VM.MaxObjects → malloc_fresh fuel VM p →
      ∃ VMg VM1 L1, vm_gc fuel VM = .ok VMg ∧ vm_new_object fuel VM Ty p = .ok (p, VM1) ∧
        chain VM1.mem VM1.FirstObject L1 ∧
        ∀ q, Reachable VM q → q ∈ L1 ∧ (VM1.mem q).map payload = (VM.mem q).map payload) := by
  constructor
  · intro n
    obtain ⟨VM1, L1, hr, hwf, _, hkeep, _⟩ := vm_gc_iter_spec (n + 1) VM L h hf
    exact ⟨VM1, L1, hr, hwf.registry, hkeep⟩
  · intro Ty p hfull hp
    obtain ⟨VMg, Lg, hr, post⟩ := vm_gc_spec h hf
    have hg : gate fuel VM = .ok VMg := by simp [gate, hfull, hr]
    have hfresh := hp.2 VMg hg
    refine ⟨VMg, _, p :: Lg, hr, by rw [vm_new_object_eq, hg], ?_, ?_⟩
    · exact chain_cons post.wf1.registry _ hp.1 hfresh rfl
    · intro q hq
      have hin := (post.live q).2 hq
      refine ⟨List.mem_cons_of_mem _ hin, ?_⟩
      have hqp : q ≠ p := by
        intro e
        obtain ⟨_, o1, e1⟩ := chain_alloc Lg _ q post.wf1.registry hin
        rw [e, hfresh] at e1; cases e1
      show (store VMg.mem p _ q).map payload = _
      rw [store_other _ _ hqp, post.kept q hin]

/-- Witness of C1 on the VM whose live count has reached the threshold. -/
theorem no_false_collection_witness :
    wf threshold_state [2, 1] ∧ [2, 1].length < 9 ∧
    ((∀ n, ∃ VM1 L1, vm_gc_iter 9 (n + 1) threshold_state = .ok VM1 ∧
      chain VM1.mem VM1.FirstObject L1 ∧
      ∀ q, Reachable threshold_state q →
        q ∈ L1 ∧ (VM1.mem q).map payload = (threshold_state.mem q).map payload) ∧
    (∀ Ty p, threshold_state.NumObjects = threshold_state.MaxObjects →
      malloc_fresh 9 threshold_state p →
      ∃ VMg VM1 L1, vm_gc 9 threshold_state = .ok VMg ∧
        vm_new_object 9 threshold_state Ty p = .ok (p, VM1) ∧
        chain VM1.mem VM1.FirstObject L1 ∧
        ∀ q, Reachable threshold_state q →
          q ∈ L1 ∧ (VM1.mem q).map payload = (threshold_state.mem q).map payload)) :=
  ⟨wf_threshold, by decide, no_false_collection wf_threshold (by decide)⟩

/-- C2 (no false retention).  When the registry is a list whose mark bits are
all false, a `vm_gc` that returns has removed from the registry, and
released, every registered object that was not reachable from the roots,
cycles included; on a well-formed VM it returns with any fuel above the
registry length. -/
theorem no_false_retention (VM : vm) (L : List Nat)
    (hreg : chain VM.mem VM.FirstObject L) (hun : ∀ p, p ∈ L → marked VM.mem p = false) :
    (∀ fuel VM1, vm_gc fuel VM = .ok VM1 →
      ∃ L1, chain VM1.mem VM1.FirstObject L1 ∧ L1.Sublist L ∧
        ∀ q, q ∈ L → ¬ Reachable VM q → q ∉ L1 ∧ VM1.mem q = none) ∧
    (wf VM L → ∀ fuel, L.length < fuel → ∃ VM1, vm_gc fuel VM = .ok VM1) := by
  constructor
  · intro fuel VM1 hrun
    unfold vm_gc vm_mark_all vm_sweep at hrun
    cases h1 : vm_mark_from fuel VM.Stack VM.StackSize.toNat 0 VM.mem with
    | error e => simp [h1] at hrun
    | ok m1 =>
      simp only [h1] at hrun
      cases h2 : vm_sweep_loop fuel { VM with mem := m1 } .first with
      | error e => simp [h2] at hrun
      | ok VM2 =>
        simp only [h2, Except.ok.injEq] at hrun
        subst hrun
        obtain ⟨g1, rc1⟩ := vm_mark_from_sound fuel VM.Stack _ 0 VM.mem m1 h1
        have hch1 : chain m1 VM.FirstObject L :=
          chain_congr L _ (fun q _ => grows_next g1 q) hreg
        obtain ⟨VM3, r3, post⟩ :=
          vm_sweep_loop_spec L (max fuel L.length + 1) { VM with mem := m1 } .first
            VM.FirstObject rfl hch1 (fun q hq => by cases hq)
            (Nat.lt_succ_of_le (le_max_right _ _))
        have e := vm_sweep_loop_mono fuel (max fuel L.length + 1) _ _ _
          (le_trans (le_max_left _ _) (Nat.le_succ _)) h2
        rw [e] at r3
        cases r3
        obtain ⟨cur1, hr1, hc1⟩ := post.registry
        simp only [cursor_read, Except.ok.injEq] at hr1
        subst hr1
        refine ⟨_, hc1, List.filter_sublist _, ?_⟩
        intro q hq hnr
        have hmq : marked m1 q = false := by
          cases hm : marked m1 q with
          | false => rfl
          | true => exact absurd (rc1 q hm (hun q hq)) hnr
        refine ⟨?_, post.freed q hq hmq⟩
        intro hin
        have := (List.mem_filter.1 hin).2
        rw [hmq] at this
        cases this
  · intro hwf fuel hf
    obtain ⟨VM1, _, hr, _⟩ := vm_gc_spec hwf hf
    exact ⟨VM1, hr⟩

/-- Witness of C2 on the VM of `test5`, whose two pairs form a cycle. -/
theorem no_false_retention_witness :
    chain test5_state.mem test5_state.FirstObject [6, 5, 4, 3, 2, 1] ∧
    (∀ p, p ∈ [6, 5, 4, 3, 2, 1] → marked test5_state.mem p = false) ∧
    ((∀ fuel VM1, vm_gc fuel test5_state = .ok VM1 →
      ∃ L1, chain VM1.mem VM1.FirstObject L1 ∧ L1.Sublist [6, 5, 4, 3, 2, 1] ∧
        ∀ q, q ∈ [6, 5, 4, 3, 2, 1] → ¬ Reachable test5_state q →
          q ∉ L1 ∧ VM1.mem q = none) ∧
    (wf test5_state [6, 5, 4, 3, 2, 1] → ∀ fuel, [6, 5, 4, 3, 2, 1].length < fuel →
      ∃ VM1, vm_gc fuel test5_state = .ok VM1)) :=
  ⟨wf_test5.registry, wf_test5.unmarked,
    no_false_retention test5_state [6, 5, 4, 3, 2, 1] wf_test5.registry wf_test5.unmarked⟩

/-- C4 (operands of `vm_push_pair` survive the triggered collection).  On a
well-formed VM with at least two stack entries and `NumObjects = MaxObjects`:
`vm_push_pair` returns; the one collection it runs is `vm_gc` on the initial
state, whose roots still hold both operands `a` and `b`; the final heap is
the heap left by that collection plus the new pair with `Head = a` and
`Tail = b`; and every object reachable from `a` or `b` is in the final
registry with its contents unchanged. -/
theorem push_pair_keeps_operands {VM : vm} {L : List Nat} (h : wf VM L) {fuel : Nat}
    (hf : L.length < fuel) {p : Nat} (hp : malloc_fresh fuel VM p)
    (h2 : 2 ≤ VM.StackSize) (hfull : VM.NumObjects = VM.MaxObjects) :
    ∃ rest a b VMg VM1 L1, roots VM = rest ++ [a, b] ∧ vm_gc fuel VM = .ok VMg ∧
      vm_push_pair fuel VM p = .ok (p, VM1) ∧
      VM1.mem = store VMg.mem p (object.mk .OBJ_PAIR 0 a b false VMg.FirstObject) ∧
      chain VM1.mem VM1.FirstObject L1 ∧
      ∀ q, reach_from VM.mem [a, b] q →
        q ∈ L1 ∧ (VM1.mem q).map payload = (VM.mem q).map payload := by
  obtain ⟨VMg, Lg, hg, post⟩ := gate_spec h hf
  have hfresh := hp.2 VMg hg
  obtain ⟨rest, a, b, VM1, hroots, hrun, ap, _, _⟩ :=
    (vm_push_pair_core hg post hp.1 hfresh).1 h2
  have hgc : vm_gc fuel VM = .ok VMg := by simpa [gate, hfull] using hg
  refine ⟨rest, a, b, VMg, VM1, p :: Lg, hroots, hgc, hrun, ap.mem, ?_, ?_⟩
  · have := ap.wf1.registry
    exact this
  · rintro q ⟨r, hr, hpath⟩
    have hrq : Reachable VM q := by
      refine ⟨r, ?_, hpath⟩
      rw [hroots]
      exact List.mem_append_right _ hr
    have hin := post.live q hrq
    refine ⟨List.mem_cons_of_mem _ hin, ?_⟩
    have hqp : q ≠ p := by
      intro e
      obtain ⟨_, o1, e1⟩ := chain_alloc Lg _ q post.wf1.registry hin
      rw [e, hfresh] at e1; cases e1
    rw [ap.mem, store_other _ _ hqp, post.kept q hin]

/-- Witness of C4 on the VM whose live count has reached the threshold. -/
theorem push_pair_keeps_operands_witness :
    wf threshold_state [2, 1] ∧ [2, 1].length < 9 ∧ malloc_fresh 9 threshold_state 3 ∧
    2 ≤ threshold_state.StackSize ∧ threshold_state.NumObjects = threshold_state.MaxObjects ∧
    ∃ rest a b VMg VM1 L1, roots threshold_state = rest ++ [a, b] ∧
      vm_gc 9 threshold_state = .ok VMg ∧
      vm_push_pair 9 threshold_state 3 = .ok (3, VM1) ∧
      VM1.mem = store VMg.mem 3 (object.mk .OBJ_PAIR 0 a b false VMg.FirstObject) ∧
      chain VM1.mem VM1.FirstObject L1 ∧
      ∀ q, reach_from threshold_state.mem [a, b] q →
        q ∈ L1 ∧ (VM1.mem q).map payload = (threshold_state.mem q).map payload :=
  ⟨wf_threshold, by decide, malloc_fresh_of_check threshold_facts.1, threshold_facts.2.1,
    threshold_facts.2.2,
    push_pair_keeps_operands wf_threshold (by decide) (malloc_fresh_of_check threshold_facts.1)
      threshold_facts.2.1 threshold_facts.2.2⟩

/-- C5 as amended (threshold policy).  After every `vm_gc` that returns,
`MaxObjects` is `INITIAL_GC_THRESHOLD` (8) if the live count `NumObjects` left
by the sweep is 0, and otherwise the 32-bit `int` value of that count times
2, which is the count times 2 while the count is below `2^30`; this is
`max 8 (NumObjects * 2)` when the count is 0 or at least 4 and below
`2^30`. -/
theorem threshold_after_gc (VM : vm) (fuel : Nat) (VM1 : vm)
    (h : vm_gc fuel VM = .ok VM1) :
    VM1.MaxObjects =
        (if VM1.NumObjects = 0 then INITIAL_GC_THRESHOLD else int32 (VM1.NumObjects * 2)) ∧
      (VM1.NumObjects ≠ 0 → -1073741824 ≤ VM1.NumObjects → VM1.NumObjects < 1073741824 →
        VM1.MaxObjects = VM1.NumObjects * 2) ∧
      (VM1.NumObjects = 0 ∨ (4 ≤ VM1.NumObjects ∧ VM1.NumObjects < 1073741824) →
        VM1.MaxObjects = max INITIAL_GC_THRESHOLD (VM1.NumObjects * 2)) := by
  unfold vm_gc at h
  cases h1 : vm_mark_all fuel VM with
  | error e => simp [h1] at h
  | ok VMa =>
    simp only [h1] at h
    cases h2 : vm_sweep fuel VMa with
    | error e => simp [h2] at h
    | ok VM2 =>
      simp only [h2, Except.ok.injEq] at h
      subst h
      refine ⟨rfl, ?_, ?_⟩
      · intro h0 hlo hhi
        have h0' : VM2.NumObjects ≠ 0 := h0
        have hlo' : -1073741824 ≤ VM2.NumObjects := hlo
        have hhi' : VM2.NumObjects < 1073741824 := hhi
        show (if VM2.NumObjects = 0 then INITIAL_GC_THRESHOLD
          else int32 (VM2.NumObjects * 2)) = VM2.NumObjects * 2
        rw [if_neg h0', int32_of_small (by omega) (by omega)]
      · intro hc
        have hc1 : VM2.NumObjects = 0 ∨ (4 ≤ VM2.NumObjects ∧ VM2.NumObjects < 1073741824) := hc
        show (if VM2.NumObjects = 0 then INITIAL_GC_THRESHOLD
          else int32 (VM2.NumObjects * 2)) = max INITIAL_GC_THRESHOLD (VM2.NumObjects * 2)
        simp only [INITIAL_GC_THRESHOLD]
        split
        · omega
        · rw [int32_of_small (by omega) (by omega)]
          omega

/-- Witness of the amended C5 on the collection of `test1`. -/
theorem threshold_after_gc_witness :
    vm_gc 9 test1_state = .ok (state_of (vm_gc 9 test1_state)) ∧
    ((state_of (vm_gc 9 test1_state)).MaxObjects =
        (if (state_of (vm_gc 9 test1_state)).NumObjects = 0 then INITIAL_GC_THRESHOLD
          else int32 ((state_of (vm_gc 9 test1_state)).NumObjects * 2)) ∧
      ((state_of (vm_gc 9 test1_state)).NumObjects ≠ 0 →
        -1073741824 ≤ (state_of (vm_gc 9 test1_state)).NumObjects →
        (state_of (vm_gc 9 test1_state)).NumObjects < 1073741824 →
        (state_of (vm_gc 9 test1_state)).MaxObjects =
          (state_of (vm_gc 9 test1_state)).NumObjects * 2) ∧
      ((state_of (vm_gc 9 test1_state)).NumObjects = 0 ∨
          (4 ≤ (state_of (vm_gc 9 test1_state)).NumObjects ∧
            (state_of (vm_gc 9 test1_state)).NumObjects < 1073741824) →
        (state_of (vm_gc 9 test1_state)).MaxObjects =
          max INITIAL_GC_THRESHOLD ((state_of (vm_gc 9 test1_state)).NumObjects * 2))) :=
  ⟨state_of_ok test1_facts.2.1,
    threshold_after_gc test1_state 9 (state_of (vm_gc 9 test1_state))
      (state_of_ok test1_facts.2.1)⟩

/-- C5 fails as stated: after the `vm_gc` of `test1` two objects survive and
`MaxObjects` is 4, not `max 8 (2 * 2) = 8`; and the operations reach a state
whose `vm_gc` leaves `2^30 + 1` survivors and the negative `MaxObjects` of the
32-bit product. -/
theorem threshold_max_counterexample :
    (Reach test1_state ∧
      vm_gc 9 test1_state = .ok (state_of (vm_gc 9 test1_state)) ∧
      (state_of (vm_gc 9 test1_state)).NumObjects = 2 ∧
      (state_of (vm_gc 9 test1_state)).MaxObjects = 4 ∧
      (state_of (vm_gc 9 test1_state)).MaxObjects ≠
        max INITIAL_GC_THRESHOLD ((state_of (vm_gc 9 test1_state)).NumObjects * 2)) ∧
    ∃ s fuel s1, Reach s ∧ vm_gc fuel s = .ok s1 ∧ s1.NumObjects = 1073741825 ∧
      s1.MaxObjects = -2147483646 ∧
      s1.MaxObjects ≠ max INITIAL_GC_THRESHOLD (s1.NumObjects * 2) := by
  refine ⟨⟨reach_test1, state_of_ok test1_facts.2.1, test1_facts.2.2.1, test1_facts.2.2.2, ?_⟩,
    ?_⟩
  · rw [test1_facts.2.2.1, test1_facts.2.2.2]; decide
  · obtain ⟨s, fuel, s1, L1, hr, hrun, _, _, _, hn, hm⟩ := reach_overflow
    exact ⟨s, fuel, s1, hr, hrun, hn, hm, by rw [hn, hm]; decide⟩

/-- C6 (mark bits are false outside a collection).  In every state reached
from `vm_new` the objects of the registry, which are all the allocated
objects, have `Marked = false`; so have the survivors of any `vm_gc` that
returns from such a state. -/
theorem marks_false_outside_gc {s : vm} (h : Reach s) :
    (∃ L, chain s.mem s.FirstObject L ∧ ∀ p, p ∈ L → ∃ o, s.mem p = some o ∧ o.Marked = false) ∧
    (∀ p o, s.mem p = some o → o.Marked = false) ∧
    (∀ fuel s1, vm_gc fuel s = .ok s1 → ∀ p o, s1.mem p = some o → o.Marked = false) := by
  have key : ∀ t, Reach t → ∀ p o, t.mem p = some o → o.Marked = false := by
    intro t ht p o hpo
    obtain ⟨L, hinv⟩ := reach_inv ht
    have := hinv.wf0.unmarked p (hinv.owned p o hpo)
    simpa [marked, hpo] using this
  obtain ⟨L, hinv⟩ := reach_inv h
  refine ⟨⟨L, hinv.wf0.registry, ?_⟩, key s h, ?_⟩
  · intro p hp
    obtain ⟨_, o, ho⟩ := chain_alloc L _ p hinv.wf0.registry hp
    exact ⟨o, ho, key s h p o ho⟩
  · intro fuel s1 hr
    exact key s1 (Reach.gc fuel h hr)

/-- Witness of C6 on the VM of `test3`. -/
theorem marks_false_outside_gc_witness :
    Reach test3_state ∧
    ((∃ L, chain test3_state.mem test3_state.FirstObject L ∧
      ∀ p, p ∈ L → ∃ o, test3_state.mem p = some o ∧ o.Marked = false) ∧
    (∀ p o, test3_state.mem p = some o → o.Marked = false) ∧
    (∀ fuel s1, vm_gc fuel test3_state = .ok s1 →
      ∀ p o, s1.mem p = some o → o.Marked = false)) :=
  ⟨reach_test3, marks_false_outside_gc reach_test3⟩

/-- C8 (`vm_push_pair`).  On a well-formed VM, with fuel above the registry
length and a fresh `malloc` result `p`: `vm_push_pair` returns if and only if
the stack holds at least two entries; when it returns on roots
`rest ++ [a, b]` the roots become `rest ++ [P]`, the size drops by one, and the
returned `P` is `p`, the new first object of the registry, an unmarked pair
with `Head = a` and `Tail = b`. -/
theorem push_pair_effect {VM : vm} {L : List Nat} (h : wf VM L) {fuel : Nat}
    (hf : L.length < fuel) {p : Nat} (hp : malloc_fresh fuel VM p) :
    ((∃ r, vm_push_pair fuel VM p = .ok r) ↔ 2 ≤ VM.StackSize) ∧
    (VM.StackSize < 2 → vm_push_pair fuel VM p = .error .stack_underflow) ∧
    (∀ P VM1, vm_push_pair fuel VM p = .ok (P, VM1) →
      P = p ∧ ∃ rest a b o, roots VM = rest ++ [a, b] ∧ roots VM1 = rest ++ [P] ∧
        VM1.StackSize = VM.StackSize - 1 ∧ VM1.FirstObject = P ∧ VM1.mem P = some o ∧
        o.Type_ = .OBJ_PAIR ∧ o.Head = a ∧ o.Tail = b ∧ o.Marked = false) := by
  obtain ⟨VMg, Lg, hg, post⟩ := gate_spec h hf
  obtain ⟨hok, herr⟩ := vm_push_pair_core hg post hp.1 (hp.2 VMg hg)
  refine ⟨?_, herr, ?_⟩
  · constructor
    · rintro ⟨r, hr⟩
      by_contra hlt
      rw [herr (by omega)] at hr
      cases hr
    · intro h2
      obtain ⟨rest, a, b, VM1, _, hrun, _⟩ := hok h2
      exact ⟨_, hrun⟩
  · intro P VM1 hrun
    have h2 : 2 ≤ VM.StackSize := by
      by_contra hlt
      rw [herr (by omega)] at hrun
      cases hrun
    obtain ⟨rest, a, b, VM2, hroots, hrun2, ap, hr2, hsz⟩ := hok h2
    rw [hrun2] at hrun
    simp only [Except.ok.injEq, Prod.mk.injEq] at hrun
    obtain ⟨e1, e2⟩ := hrun
    subst e1 e2
    refine ⟨rfl, rest, a, b, object.mk .OBJ_PAIR 0 a b false VMg.FirstObject, hroots, hr2, hsz,
      ap.first, ?_, rfl, rfl, rfl, rfl⟩
    rw [ap.mem, store_same]

/-- Witness of C8 on the VM of `test1`. -/
theorem push_pair_effect_witness :
    wf test1_state [2, 1] ∧ [2, 1].length < 9 ∧ malloc_fresh 9 test1_state 3 ∧
    (((∃ r, vm_push_pair 9 test1_state 3 = .ok r) ↔ 2 ≤ test1_state.StackSize) ∧
    (test1_state.StackSize < 2 → vm_push_pair 9 test1_state 3 = .error .stack_underflow) ∧
    (∀ P VM1, vm_push_pair 9 test1_state 3 = .ok (P, VM1) →
      P = 3 ∧ ∃ rest a b o, roots test1_state = rest ++ [a, b] ∧ roots VM1 = rest ++ [P] ∧
        VM1.StackSize = test1_state.StackSize - 1 ∧ VM1.FirstObject = P ∧
        VM1.mem P = some o ∧
        o.Type_ = .OBJ_PAIR ∧ o.Head = a ∧ o.Tail = b ∧ o.Marked = false)) :=
  ⟨wf_test1, by decide, malloc_fresh_of_check test1_facts.1,
    push_pair_effect wf_test1 (by decide) (malloc_fresh_of_check test1_facts.1)⟩

/-- C9 (`vm_pop`).  On the C stack array with a size within its bounds,
`vm_pop` fails if and only if the stack is empty, and then with the stack
underflow; otherwise it returns the last root and changes nothing but
`StackSize`, which drops by one, so that the other roots stay in order and
the heap, the registry, the live count and the threshold are the same; the
entry returned right after a `vm_stack_push` is the value pushed. -/
theorem pop_effect (VM : vm) (hs : shape VM) :
    ((∃ e, vm_pop VM = .error e) ↔ VM.StackSize = 0) ∧
    (VM.StackSize = 0 → vm_pop VM = .error .stack_underflow) ∧
    (VM.StackSize ≠ 0 → ∃ v, vm_pop VM = .ok (v, { VM with StackSize := VM.StackSize - 1 }) ∧
      roots VM = roots { VM with StackSize := VM.StackSize - 1 } ++ [v]) ∧
    (∀ VM0 x, shape VM0 → vm_stack_push VM0 x = .ok VM →
      ∃ VM1, vm_pop VM = .ok (x, VM1) ∧ roots VM1 = roots VM0) := by
  have hlo := hs.2.1
  have hempty : VM.StackSize = 0 → vm_pop VM = .error .stack_underflow :=
    fun h0 => vm_pop_empty (by omega)
  have hsome : VM.StackSize ≠ 0 →
      ∃ v, vm_pop VM = .ok (v, { VM with StackSize := VM.StackSize - 1 }) ∧
        roots VM = roots { VM with StackSize := VM.StackSize - 1 } ++ [v] :=
    fun h0 => vm_pop_ok hs (by omega)
  refine ⟨?_, hempty, hsome, ?_⟩
  · constructor
    · rintro ⟨e, he⟩
      by_contra h0
      obtain ⟨v, hv, _⟩ := hsome h0
      rw [hv] at he
      cases he
    · intro h0
      exact ⟨_, hempty h0⟩
  · intro VM0 x hs0 hpush
    by_cases hlt : VM0.StackSize < STACK_MAX
    · obtain ⟨hp, hr⟩ := vm_stack_push_ok hs0 x hlt
      rw [hp] at hpush
      simp only [Except.ok.injEq] at hpush
      subst hpush
      have h1 : (0 : Int) < VM0.StackSize + 1 := by have := hs0.2.1; omega
      obtain ⟨v, hv, hrv⟩ := vm_pop_ok hs h1
      rw [hr] at hrv
      have hv1 := List.append_inj' hrv rfl
      have hvx : x = v := by simpa using hv1.2
      subst hvx
      exact ⟨_, hv, hv1.1.symm⟩
    · rw [vm_stack_push_full x hlt] at hpush
      cases hpush

/-- Witness of C9 on the VM of `test1`. -/
theorem pop_effect_witness :
    shape test1_state ∧
    (((∃ e, vm_pop test1_state = .error e) ↔ test1_state.StackSize = 0) ∧
    (test1_state.StackSize = 0 → vm_pop test1_state = .error .stack_underflow) ∧
    (test1_state.StackSize ≠ 0 →
      ∃ v, vm_pop test1_state =
          .ok (v, { test1_state with StackSize := test1_state.StackSize - 1 }) ∧
        roots test1_state =
          roots { test1_state with StackSize := test1_state.StackSize - 1 } ++ [v]) ∧
    (∀ VM0 x, shape VM0 → vm_stack_push VM0 x = .ok test1_state →
      ∃ VM1, vm_pop test1_state = .ok (x, VM1) ∧ roots VM1 = roots VM0)) :=
  ⟨wf_shape wf_test1, pop_effect test1_state (wf_shape wf_test1)⟩

/-- C10 (`vm_push_int`).  On a well-formed VM, with fuel above the registry
length and a fresh `malloc` result `p`: `vm_push_int` fails if and only if the
stack already holds `STACK_MAX` entries, and then with the stack overflow;
otherwise it appends `p` to the roots, leaving the earlier roots in order,
and `p` is the new first object of the registry, an unmarked `OBJ_INT` object
with value `v`. -/
theorem push_int_effect {VM : vm} {L : List Nat} (h : wf VM L) {fuel : Nat}
    (hf : L.length < fuel) (v : Int) {p : Nat} (hp : malloc_fresh fuel VM p) :
    ((∃ e, vm_push_int fuel VM v p = .error e) ↔ VM.StackSize = STACK_MAX) ∧
    (VM.StackSize = STACK_MAX → vm_push_int fuel VM v p = .error .stack_overflow) ∧
    (VM.StackSize ≠ STACK_MAX → ∃ VM1 Lg o, vm_push_int fuel VM v p = .ok VM1 ∧
      roots VM1 = roots VM ++ [p] ∧ VM1.StackSize = VM.StackSize + 1 ∧
      chain VM1.mem VM1.FirstObject (p :: Lg) ∧ Lg.Sublist L ∧ p ∉ Lg ∧
      VM1.mem p = some o ∧ o.Type_ = .OBJ_INT ∧ o.AsInt = v ∧ o.Marked = false) := by
  obtain ⟨VMg, Lg, hg, post⟩ := gate_spec h hf
  obtain ⟨hok, herr⟩ := vm_push_int_core hg post v hp.1 (hp.2 VMg hg)
  have hhi := h.size_hi
  have hfull : VM.StackSize = STACK_MAX → vm_push_int fuel VM v p = .error .stack_overflow :=
    fun h0 => herr (by omega)
  have hsome : VM.StackSize ≠ STACK_MAX → ∃ VM1 Lg o, vm_push_int fuel VM v p = .ok VM1 ∧
      roots VM1 = roots VM ++ [p] ∧ VM1.StackSize = VM.StackSize + 1 ∧
      chain VM1.mem VM1.FirstObject (p :: Lg) ∧ Lg.Sublist L ∧ p ∉ Lg ∧
      VM1.mem p = some o ∧ o.Type_ = .OBJ_INT ∧ o.AsInt = v ∧ o.Marked = false := by
    intro h0
    obtain ⟨VM1, hrun, ap, hr, hsz⟩ := hok (by omega)
    have hreg := ap.wf1.registry
    refine ⟨VM1, Lg, object.mk .OBJ_INT v 0 0 false VMg.FirstObject, hrun, hr, hsz, hreg, post.sub,
      (List.nodup_cons.1 (chain_nodup _ _ hreg)).1, ?_, rfl, rfl, rfl⟩
    rw [ap.mem, store_same]
  refine ⟨?_, hfull, hsome⟩
  constructor
  · rintro ⟨e, he⟩
    by_contra h0
    obtain ⟨VM1, _, _, hrun, _⟩ := hsome h0
    rw [hrun] at he
    cases he
  · intro h0
    exact ⟨_, hfull h0⟩

/-- Witness of C10 on the VM with two pairs on the stack. -/
theorem push_int_effect_witness :
    wf two_pairs_state [6, 5, 4, 3, 2, 1] ∧ [6, 5, 4, 3, 2, 1].length < 9 ∧
    malloc_fresh 9 two_pairs_state 7 ∧
    (((∃ e, vm_push_int 9 two_pairs_state 5 7 = .error e) ↔
      two_pairs_state.StackSize = STACK_MAX) ∧
    (two_pairs_state.StackSize = STACK_MAX →
      vm_push_int 9 two_pairs_state 5 7 = .error .stack_overflow) ∧
    (two_pairs_state.StackSize ≠ STACK_MAX →
      ∃ VM1 Lg o, vm_push_int 9 two_pairs_state 5 7 = .ok VM1 ∧
        roots VM1 = roots two_pairs_state ++ [7] ∧
        VM1.StackSize = two_pairs_state.StackSize + 1 ∧
        chain VM1.mem VM1.FirstObject (7 :: Lg) ∧ Lg.Sublist [6, 5, 4, 3, 2, 1] ∧ 7 ∉ Lg ∧
        VM1.mem 7 = some o ∧ o.Type_ = .OBJ_INT ∧ o.AsInt = 5 ∧ o.Marked = false)) :=
  ⟨wf_two_pairs, by decide, malloc_fresh_of_check two_pairs_facts,
    push_int_effect wf_two_pairs (by decide) 5 (malloc_fresh_of_check two_pairs_facts)⟩

/-- C12 (teardown).  In every state reached from `vm_new` by successful
operations, also with `Head`/`Tail` fields of live pairs reassigned to live
objects (cycles included), `vm_free` with fuel above the live count sets the
stack size to 0, collects, and leaves `NumObjects = 0`, an empty registry
(`FirstObject = NULL`) and no allocated object before the VM is released. -/
theorem teardown_reclaims_all {s : vm} (h : ReachRewire s) {fuel : Nat}
    (hf : s.NumObjects < fuel) :
    ∃ s1, vm_free fuel s = .ok s1 ∧ vm_gc fuel { s with StackSize := 0 } = .ok s1 ∧
      s1.NumObjects = 0 ∧ s1.FirstObject = 0 ∧ chain s1.mem s1.FirstObject [] ∧
      s1.StackSize = 0 ∧ ∀ q, s1.mem q = none := by
  obtain ⟨L, hinv⟩ := reach_rewire_inv h
  have hf1 : L.length < fuel := by
    have := hinv.count
    omega
  obtain ⟨s1, hr, hn, hfst, hsz, hmem⟩ := vm_free_spec hinv hf1
  exact ⟨s1, hr, hr, hn, hfst, hfst, hsz, hmem⟩

/-- Witness of C12 on the VM of `test4`, whose two pairs form a cycle. -/
theorem teardown_reclaims_all_witness :
    ReachRewire test4_state ∧ test4_state.NumObjects < ((9 : Nat) : Int) ∧
    ∃ s1, vm_free 9 test4_state = .ok s1 ∧
      vm_gc 9 { test4_state with StackSize := 0 } = .ok s1 ∧
      s1.NumObjects = 0 ∧ s1.FirstObject = 0 ∧ chain s1.mem s1.FirstObject [] ∧
      s1.StackSize = 0 ∧ ∀ q, s1.mem q = none :=
  ⟨reach_rewire_test4, by rw [test4_facts.1]; decide,
    teardown_reclaims_all reach_rewire_test4 (by rw [test4_facts.1]; decide)⟩

/-- C13 (`vm_mark` terminates and marks the reachable objects).  Let every
address of the finite list `D` hold an object whose pair fields stay in `D`
(cycles allowed), `p` in `D`, and let the recursion depth `f + 1` exceed the
number of unmarked objects of `D`.  Then `vm_mark` returns.  On a marked `p`
it returns the heap as it is; on an unmarked `p` it first marks `p`, which
strictly lowers the number of unmarked objects, and only then recurses, with
depth `f`, into `Head` and `Tail`.  If all marks were false, the marked
objects are afterwards exactly those reachable from `p`. -/
theorem mark_terminates (D : List Nat) (m : Nat → Option object) (p : Nat)
    (hD : closed_in m D) (hp : p ∈ D) (f : Nat) (hf : ucount m D ≤ f) :
    ∃ m1, vm_mark (f + 1) m p = .ok m1 ∧ grows m m1 ∧
      (marked m p = true → m1 = m) ∧
      (marked m p = false → ∃ o, m p = some o ∧
        ucount (store m p { o with Marked := true }) D < ucount m D ∧
        ucount m1 D < ucount m D ∧
        (o.Type_ ≠ .OBJ_PAIR → m1 = store m p { o with Marked := true }) ∧
        (o.Type_ = .OBJ_PAIR → ∃ m2,
          vm_mark f (store m p { o with Marked := true }) o.Head = .ok m2 ∧
          ucount m2 D < ucount m D ∧ vm_mark f m2 o.Tail = .ok m1)) ∧
      ((∀ q, marked m q = false) →
        ∀ q, marked m1 q = true ↔ Relation.ReflTransGen (edge m) p q) := by
  obtain ⟨m1, hrun, g, hmp, hcl, hsound⟩ := vm_mark_spec D (f + 1) m p hD hp (by omega)
  obtain ⟨⟨o, ho⟩, hc⟩ := hD p hp
  refine ⟨m1, hrun, g, ?_, ?_, ?_⟩
  · intro hm
    have hm1 : o.Marked = true := by simpa [marked, ho] using hm
    have : vm_mark (f + 1) m p = .ok m := by
      unfold vm_mark
      simp only [ho, hm1, if_true]
    rw [this] at hrun
    cases hrun
    rfl
  · intro hm
    have hm0 : o.Marked = false := by simpa [marked, ho] using hm
    have g1 := grows_store ho hm0
    have hlt := ucount_store_lt ho hm0 D hp
    have hD1 := grows_closed g1 hD
    refine ⟨o, ho, hlt, ?_, ?_, ?_⟩
    · by_cases ht : o.Type_ = .OBJ_PAIR
      · have eH : edge m p o.Head := by simp [edge, ho, ht]
        have eT : edge m p o.Tail := by simp [edge, ho, ht]
        obtain ⟨m2, r2, g2, _⟩ := vm_mark_spec D f _ o.Head hD1 (hc _ eH) (by omega)
        have hle2 := ucount_mono g2 D
        obtain ⟨m3, r3, g3, _⟩ :=
          vm_mark_spec D f m2 o.Tail (grows_closed g2 hD1) (hc _ eT) (by omega)
        have : vm_mark (f + 1) m p = .ok m3 := by
          unfold vm_mark
          simp only [ho, hm0, Bool.false_eq_true, if_false, if_pos ht, r2, r3]
        rw [this] at hrun
        cases hrun
        have hle3 := ucount_mono g3 D
        omega
      · have : vm_mark (f + 1) m p = .ok (store m p { o with Marked := true }) := by
          unfold vm_mark
          simp only [ho, hm0, Bool.false_eq_true, if_false, if_neg ht]
        rw [this] at hrun
        cases hrun
        exact hlt
    · intro ht
      have : vm_mark (f + 1) m p = .ok (store m p { o with Marked := true }) := by
        unfold vm_mark
        simp only [ho, hm0, Bool.false_eq_true, if_false, if_neg ht]
      rw [this] at hrun
      cases hrun
      rfl
    · intro ht
      have eH : edge m p o.Head := by simp [edge, ho, ht]
      have eT : edge m p o.Tail := by simp [edge, ho, ht]
      obtain ⟨m2, r2, g2, _⟩ := vm_mark_spec D f _ o.Head hD1 (hc _ eH) (by omega)
      have hle2 := ucount_mono g2 D
      obtain ⟨m3, r3, g3, _⟩ :=
        vm_mark_spec D f m2 o.Tail (grows_closed g2 hD1) (hc _ eT) (by omega)
      have : vm_mark (f + 1) m p = .ok m3 := by
        unfold vm_mark
        simp only [ho, hm0, Bool.false_eq_true, if_false, if_pos ht, r2, r3]
      rw [this] at hrun
      cases hrun
      exact ⟨m2, r2, by omega, r3⟩
  · intro h0 q
    have key := @marked_iff_reach m m1 [p] h0
      (fun r hr => by simp at hr; rw [hr]; exact hmp) hcl
      (fun q h1 h2 => ⟨p, List.mem_singleton_self p, hsound q h1 h2⟩) q
    rw [key]
    constructor
    · rintro ⟨r, hr, hpath⟩
      simp at hr
      rw [← hr]; exact hpath
    · intro hpath
      exact ⟨p, List.mem_singleton_self p, hpath⟩

/-- Witness of C13 on the cyclic heap of `test4`, marking from the pair at 6. -/
theorem mark_terminates_witness :
    closed_in test4_state.mem [6, 5, 4, 3, 2, 1] ∧ 6 ∈ [6, 5, 4, 3, 2, 1] ∧
    ucount test4_state.mem [6, 5, 4, 3, 2, 1] ≤ 6 ∧
    ∃ m1, vm_mark (6 + 1) test4_state.mem 6 = .ok m1 ∧ grows test4_state.mem m1 ∧
      (marked test4_state.mem 6 = true → m1 = test4_state.mem) ∧
      (marked test4_state.mem 6 = false → ∃ o, test4_state.mem 6 = some o ∧
        ucount (store test4_state.mem 6 { o with Marked := true }) [6, 5, 4, 3, 2, 1] <
          ucount test4_state.mem [6, 5, 4, 3, 2, 1] ∧
        ucount m1 [6, 5, 4, 3, 2, 1] < ucount test4_state.mem [6, 5, 4, 3, 2, 1] ∧
        (o.Type_ ≠ .OBJ_PAIR → m1 = store test4_state.mem 6 { o with Marked := true }) ∧
        (o.Type_ = .OBJ_PAIR → ∃ m2,
          vm_mark 6 (store test4_state.mem 6 { o with Marked := true }) o.Head = .ok m2 ∧
          ucount m2 [6, 5, 4, 3, 2, 1] < ucount test4_state.mem [6, 5, 4, 3, 2, 1] ∧
          vm_mark 6 m2 o.Tail = .ok m1)) ∧
      ((∀ q, marked test4_state.mem q = false) →
        ∀ q, marked m1 q = true ↔ Relation.ReflTransGen (edge test4_state.mem) 6 q) :=
  ⟨wf_closed wf_test4, by decide, List.countP_le_length _,
    mark_terminates [6, 5, 4, 3, 2, 1] test4_state.mem 6 (wf_closed wf_test4) (by decide) 6
      (List.countP_le_length _)⟩

/-- C14 (the order of the roots does not matter).  Let `VM` be well-formed
with all marks of its heap false, and `VM2` a VM with the same heap whose
roots are a permutation of those of `VM`.  With fuel above the registry
length `vm_mark_all` returns on both with the same heap, in which the marked
objects are exactly those reachable from the roots in the sense of I1: a root
target, or reached from one through `Head`/`Tail` of pairs. -/
theorem mark_all_order_independent {VM VM2 : vm} {L : List Nat} (h : wf VM L)
    (h0 : ∀ q, marked VM.mem q = false) (hmem : VM2.mem = VM.mem) (hs : shape VM2)
    (hperm : (roots VM2).Perm (roots VM)) {fuel : Nat} (hf : L.length < fuel) :
    ∃ m1, vm_mark_all fuel VM = .ok { VM with mem := m1 } ∧
      vm_mark_all fuel VM2 = .ok { VM2 with mem := m1 } ∧
      (∀ q, marked m1 q = true ↔
        ∃ r, r ∈ roots VM ∧ Relation.ReflTransGen (edge VM.mem) r q) ∧
      (∀ q, marked m1 q = true ↔ Reachable VM q) ∧
      (∀ q, Reachable VM2 q ↔ Reachable VM q) := by
  have hcnt : ucount VM.mem L < fuel := lt_of_le_of_lt (List.countP_le_length _) hf
  have hlen1 := size_toNat_le h
  have hlen2 : VM2.StackSize.toNat ≤ VM2.Stack.length := by
    obtain ⟨e1, e2, e3⟩ := hs
    rw [e1]; omega
  obtain ⟨m1, r1, g1, mk1, cl1, rc1⟩ :=
    vm_mark_from_spec L fuel VM.Stack VM.StackSize.toNat 0 VM.mem (wf_closed h)
      (by omega) (fun r hr => h.roots_in r hr) hcnt
  obtain ⟨m2, r2, g2, mk2, cl2, rc2⟩ :=
    vm_mark_from_spec L fuel VM2.Stack VM2.StackSize.toNat 0 VM.mem (wf_closed h)
      (by omega) (fun r hr => h.roots_in r (hperm.mem_iff.1 hr)) hcnt
  have iff1 : ∀ q, marked m1 q = true ↔ reach_from VM.mem (roots VM) q :=
    marked_iff_reach h0 mk1 cl1 rc1
  have iff2 : ∀ q, marked m2 q = true ↔ reach_from VM.mem (roots VM2) q :=
    marked_iff_reach h0 mk2 cl2 rc2
  have hreach : ∀ q, reach_from VM.mem (roots VM2) q ↔ reach_from VM.mem (roots VM) q := by
    intro q
    constructor
    · rintro ⟨r, hr, hp⟩
      exact ⟨r, hperm.mem_iff.1 hr, hp⟩
    · rintro ⟨r, hr, hp⟩
      exact ⟨r, hperm.mem_iff.2 hr, hp⟩
  have heq : m1 = m2 := by
    apply grows_ext g1 g2
    intro q
    have e : marked m1 q = true ↔ marked m2 q = true := by
      rw [iff1 q, iff2 q, hreach q]
    cases h1 : marked m1 q with
    | true => exact (e.1 h1).symm
    | false =>
      cases h2 : marked m2 q with
      | false => rfl
      | true => rw [e.2 h2] at h1; cases h1
  refine ⟨m1, by simp [vm_mark_all, r1], ?_, iff1, iff1, ?_⟩
  · rw [heq]
    simp only [vm_mark_all, hmem, r2]
  · intro q
    show reach_from VM2.mem (roots VM2) q ↔ _
    rw [hmem]
    exact hreach q

/-- Witness of C14 on the VM of `test1` and the same VM with its two roots
exchanged. -/
theorem mark_all_order_independent_witness :
    wf test1_state [2, 1] ∧ (∀ q, marked test1_state.mem q = false) ∧
    test1_swapped.mem = test1_state.mem ∧ shape test1_swapped ∧
    (roots test1_swapped).Perm (roots test1_state) ∧ [2, 1].length < 9 ∧
    ∃ m1, vm_mark_all 9 test1_state = .ok { test1_state with mem := m1 } ∧
      vm_mark_all 9 test1_swapped = .ok { test1_swapped with mem := m1 } ∧
      (∀ q, marked m1 q = true ↔
        ∃ r, r ∈ roots test1_state ∧ Relation.ReflTransGen (edge test1_state.mem) r q) ∧
      (∀ q, marked m1 q = true ↔ Reachable test1_state q) ∧
      (∀ q, Reachable test1_swapped q ↔ Reachable test1_state q) :=
  have hperm : (roots test1_swapped).Perm (roots test1_state) := by
    rw [test1_swapped_facts.2.2.1, test1_swapped_facts.2.2.2]
    exact List.Perm.swap 1 2 []
  ⟨wf_test1, reach_marks_false reach_test1, test1_swapped_facts.1, test1_swapped_facts.2.1,
    hperm, by decide,
    mark_all_order_independent wf_test1 (reach_marks_false reach_test1) test1_swapped_facts.1
      test1_swapped_facts.2.1 hperm (by decide)⟩

/-- C16 as amended (the count does not pass the threshold while collections
leave fewer than `2^30` survivors).  In every state reached from `vm_new` by
successful operations in the course of which every collection left fewer than
`2^30` survivors: `0 ≤ NumObjects ≤ MaxObjects`; after a `vm_gc`, and after the
threshold test of `vm_new_object`, that leaves fewer than `2^30` survivors,
`NumObjects < MaxObjects`, so that the increment of `vm_new_object` does not
pass the threshold. -/
theorem count_below_threshold {s : vm} (h : ReachBounded s) :
    0 ≤ s.NumObjects ∧ s.NumObjects ≤ s.MaxObjects ∧
    (∀ fuel s1, vm_gc fuel s = .ok s1 → s1.NumObjects < 1073741824 →
      s1.NumObjects < s1.MaxObjects) ∧
    (∀ fuel s1, gate fuel s = .ok s1 →
      (s.NumObjects = s.MaxObjects → s1.NumObjects < 1073741824) →
      s1.NumObjects < s1.MaxObjects ∧ s1.NumObjects + 1 ≤ s1.MaxObjects) ∧
    (∀ fuel Ty p P s1, malloc_fresh fuel s p → vm_new_object fuel s Ty p = .ok (P, s1) →
      (s.NumObjects = s.MaxObjects → s1.NumObjects ≤ 1073741824) →
      s1.NumObjects ≤ s1.MaxObjects) := by
  obtain ⟨L, hinv, hle⟩ := reach_bounded_inv h
  have hgate : ∀ fuel s1, gate fuel s = .ok s1 →
      (s.NumObjects = s.MaxObjects → s1.NumObjects < 1073741824) →
      s1.NumObjects < s1.MaxObjects := by
    intro fuel s1 hg hb
    obtain ⟨Lg, post⟩ := gate_post_of_ok hinv.wf0 hg
    exact gate_strict hinv hle post hb
  refine ⟨by rw [hinv.count]; exact Int.ofNat_zero_le _, hle, ?_, ?_, ?_⟩
  · intro fuel s1 hr hb
    obtain ⟨L1, post⟩ := vm_gc_post_of_ok hinv.wf0 hr
    exact gc_strict hinv post hb
  · intro fuel s1 hg hb
    have := hgate fuel s1 hg hb
    exact ⟨this, by omega⟩
  · intro fuel Ty p P s1 _ hr hb
    rw [vm_new_object_eq] at hr
    cases hg : gate fuel s with
    | error e => simp [hg] at hr
    | ok VMg =>
      simp only [hg, Except.ok.injEq, Prod.mk.injEq] at hr
      have hb1 : s.NumObjects = s.MaxObjects → VMg.NumObjects < 1073741824 := by
        intro hc
        have := hb hc
        rw [← hr.2] at this
        have this1 : VMg.NumObjects + 1 ≤ 1073741824 := this
        omega
      have := hgate fuel VMg hg hb1
      rw [← hr.2]
      show VMg.NumObjects + 1 ≤ VMg.MaxObjects
      omega

/-- Witness of the amended C16 on the VM whose live count has reached the
threshold. -/
theorem count_below_threshold_witness :
    ReachBounded threshold_state ∧
    (0 ≤ threshold_state.NumObjects ∧ threshold_state.NumObjects ≤ threshold_state.MaxObjects ∧
    (∀ fuel s1, vm_gc fuel threshold_state = .ok s1 → s1.NumObjects < 1073741824 →
      s1.NumObjects < s1.MaxObjects) ∧
    (∀ fuel s1, gate fuel threshold_state = .ok s1 →
      (threshold_state.NumObjects = threshold_state.MaxObjects →
        s1.NumObjects < 1073741824) →
      s1.NumObjects < s1.MaxObjects ∧ s1.NumObjects + 1 ≤ s1.MaxObjects) ∧
    (∀ fuel Ty p P s1, malloc_fresh fuel threshold_state p →
      vm_new_object fuel threshold_state Ty p = .ok (P, s1) →
      (threshold_state.NumObjects = threshold_state.MaxObjects →
        s1.NumObjects ≤ 1073741824) →
      s1.NumObjects ≤ s1.MaxObjects)) :=
  ⟨reach_bounded_threshold, count_below_threshold reach_bounded_threshold⟩

/-- C16 fails as stated: the operations reach a state whose `vm_gc` leaves
`2^30 + 1` survivors; the state after it is reached too, and there
`MaxObjects = -2147483646` is below `NumObjects`. -/
theorem count_below_threshold_counterexample :
    ∃ s fuel s1, Reach s ∧ vm_gc fuel s = .ok s1 ∧ Reach s1 ∧
      s1.NumObjects = 1073741825 ∧ s1.MaxObjects = -2147483646 ∧
      ¬ s1.NumObjects ≤ s1.MaxObjects ∧ ¬ s1.NumObjects < s1.MaxObjects := by
  obtain ⟨s, fuel, s1, L1, hr, hrun, hr1, _, _, hn, hm⟩ := reach_overflow
  exact ⟨s, fuel, s1, hr, hrun, hr1, hn, hm, by rw [hn, hm]; decide, by rw [hn, hm]; decide⟩

/-- C17 (no dangling reference).  In every state reached from `vm_new` there
is a registry list `L` of allocated, non-null addresses such that each of
the `StackSize` live entries of `Stack`, and the `Head` and the `Tail` of
every pair of the registry, is in `L`. -/
theorem references_registered {s : vm} (h : Reach s) :
    ∃ L, chain s.mem s.FirstObject L ∧
      (∀ q, q ∈ L → q ≠ 0 ∧ ∃ o, s.mem q = some o) ∧
      (∀ i : Nat, (i : Int) < s.StackSize → ∃ r, s.Stack[i]? = some r ∧ r ∈ L) ∧
      (∀ r, r ∈ roots s → r ∈ L) ∧
      (∀ p o, p ∈ L → s.mem p = some o → o.Type_ = .OBJ_PAIR → o.Head ∈ L ∧ o.Tail ∈ L) := by
  obtain ⟨L, hinv⟩ := reach_inv h
  have hwf := hinv.wf0
  refine ⟨L, hwf.registry, fun q hq => chain_alloc L _ q hwf.registry hq, ?_, hwf.roots_in, ?_⟩
  · intro i hi
    have hlen := size_toNat_le hwf
    have hi1 : i < s.StackSize.toNat := by omega
    have hi2 : i < s.Stack.length := by omega
    refine ⟨s.Stack[i], List.getElem?_eq_getElem hi2, ?_⟩
    apply hwf.roots_in
    show s.Stack[i] ∈ List.take s.StackSize.toNat s.Stack
    rw [List.mem_take_iff_getElem]
    exact ⟨i, by omega, rfl⟩
  · intro p o hp ho ht
    exact ⟨hwf.fields p hp o.Head (by simp [edge, ho, ht]),
      hwf.fields p hp o.Tail (by simp [edge, ho, ht])⟩

/-- Witness of C17 on the VM of `test3`. -/
theorem references_registered_witness :
    Reach test3_state ∧
    ∃ L, chain test3_state.mem test3_state.FirstObject L ∧
      (∀ q, q ∈ L → q ≠ 0 ∧ ∃ o, test3_state.mem q = some o) ∧
      (∀ i : Nat, (i : Int) < test3_state.StackSize →
        ∃ r, test3_state.Stack[i]? = some r ∧ r ∈ L) ∧
      (∀ r, r ∈ roots test3_state → r ∈ L) ∧
      (∀ p o, p ∈ L → test3_state.mem p = some o → o.Type_ = .OBJ_PAIR →
        o.Head ∈ L ∧ o.Tail ∈ L) :=
  ⟨reach_test3, references_registered reach_test3⟩

/-- C18 (frame of `vm_gc`).  Whatever the state, a `vm_gc` that returns leaves
`Stack` and `StackSize`, hence the roots, as they were, creates no object,
and every object of the final heap has the type, integer value, `Head` and
`Tail` it had; on a well-formed VM the reachable objects are such
survivors. -/
theorem gc_frame (VM : vm) (fuel : Nat) (VM1 : vm) (hr : vm_gc fuel VM = .ok VM1) :
    VM1.Stack = VM.Stack ∧ VM1.StackSize = VM.StackSize ∧ roots VM1 = roots VM ∧
    (∀ q o1, VM1.mem q = some o1 → ∃ o, VM.mem q = some o ∧ o1.Type_ = o.Type_ ∧
      o1.AsInt = o.AsInt ∧ o1.Head = o.Head ∧ o1.Tail = o.Tail) ∧
    (∀ L, wf VM L → ∀ q, Reachable VM q → ∃ o o1, VM.mem q = some o ∧
      VM1.mem q = some o1 ∧ o1.Type_ = o.Type_ ∧ o1.AsInt = o.AsInt ∧
      o1.Head = o.Head ∧ o1.Tail = o.Tail) := by
  have hrun := hr
  unfold vm_gc vm_mark_all vm_sweep at hr
  cases h1 : vm_mark_from fuel VM.Stack VM.StackSize.toNat 0 VM.mem with
  | error e => simp [h1] at hr
  | ok m1 =>
    simp only [h1] at hr
    cases h2 : vm_sweep_loop fuel { VM with mem := m1 } .first with
    | error e => simp [h2] at hr
    | ok VM2 =>
      simp only [h2, Except.ok.injEq] at hr
      subst hr
      obtain ⟨g1, _⟩ := vm_mark_from_sound fuel VM.Stack _ 0 VM.mem m1 h1
      obtain ⟨e1, e2, e3⟩ := vm_sweep_loop_frame fuel _ _ VM2 h2
      have e1' : VM2.Stack = VM.Stack := e1
      have e2' : VM2.StackSize = VM.StackSize := e2
      have hsh : shrinks VM.mem VM2.mem := shrinks_trans (shrinks_of_grows g1) e3
      refine ⟨e1', e2', by simp only [roots, e1', e2'], ?_, ?_⟩
      · intro q o1 hq
        obtain ⟨o, ho, hp⟩ := hsh q o1 hq
        simp only [payload, Prod.mk.injEq] at hp
        exact ⟨o, ho, hp⟩
      · intro L hwf q hq
        obtain ⟨L1, post⟩ := vm_gc_post_of_ok hwf hrun
        have hin := (post.live q).2 hq
        obtain ⟨_, o1, ho1⟩ := chain_alloc L1 _ q post.wf1.registry hin
        obtain ⟨o, ho, hp⟩ := hsh q o1 ho1
        simp only [payload, Prod.mk.injEq] at hp
        exact ⟨o, o1, ho, ho1, hp⟩

/-- Witness of C18 on the collection of `test4`. -/
theorem gc_frame_witness :
    vm_gc 9 test4_state = .ok (state_of (vm_gc 9 test4_state)) ∧
    ((state_of (vm_gc 9 test4_state)).Stack = test4_state.Stack ∧
    (state_of (vm_gc 9 test4_state)).StackSize = test4_state.StackSize ∧
    roots (state_of (vm_gc 9 test4_state)) = roots test4_state ∧
    (∀ q o1, (state_of (vm_gc 9 test4_state)).mem q = some o1 →
      ∃ o, test4_state.mem q = some o ∧ o1.Type_ = o.Type_ ∧
        o1.AsInt = o.AsInt ∧ o1.Head = o.Head ∧ o1.Tail = o.Tail) ∧
    (∀ L, wf test4_state L → ∀ q, Reachable test4_state q →
      ∃ o o1, test4_state.mem q = some o ∧
        (state_of (vm_gc 9 test4_state)).mem q = some o1 ∧ o1.Type_ = o.Type_ ∧
        o1.AsInt = o.AsInt ∧ o1.Head = o.Head ∧ o1.Tail = o.Tail)) :=
  ⟨state_of_ok test4_facts.2,
    gc_frame test4_state 9 (state_of (vm_gc 9 test4_state)) (state_of_ok test4_facts.2)⟩

/-- C19 (`vm_gc` is idempotent).  On a well-formed VM (all mark bits false),
with fuel above the registry length, `vm_gc` returns a state on which a
second `vm_gc` returns that very state: same stack, registry, objects,
`NumObjects` and `MaxObjects`, and no object removed. -/
theorem gc_idempotent {VM : vm} {L : List Nat} (h : wf VM L) {fuel : Nat}
    (hf : L.length < fuel) :
    ∃ VM1 L1, vm_gc fuel VM = .ok VM1 ∧ vm_gc fuel VM1 = .ok VM1 ∧
      chain VM1.mem VM1.FirstObject L1 ∧ ∀ q, q ∈ L1 ↔ Reachable VM q := by
  obtain ⟨VM1, L1, hr1, post1⟩ := vm_gc_spec h hf
  have hlen1 := post1.sub.length_le
  obtain ⟨VM2, L2, hr2, post2⟩ := vm_gc_spec post1.wf1 (lt_of_le_of_lt hlen1 hf)
  have hnd1 := chain_nodup _ _ post1.wf1.registry
  have hsub : L1 ⊆ L2 := by
    intro q hq
    exact (post2.live q).2 ((post1.reach q).2 ((post1.live q).1 hq))
  have hL : L2 = L1 :=
    post2.sub.eq_of_length_le (List.subperm_of_subset hnd1 hsub).length_le
  subst hL
  obtain ⟨hfirst, hnext⟩ := chain_next_eq L2 _ _ post2.wf1.registry post1.wf1.registry
  have hmem : VM2.mem = VM1.mem := by
    funext q
    by_cases hq : q ∈ L2
    · obtain ⟨_, o1, ho1⟩ := chain_alloc L2 _ q post1.wf1.registry hq
      obtain ⟨_, o2, ho2⟩ := chain_alloc L2 _ q post2.wf1.registry hq
      have hp := post2.kept q hq
      have hn := hnext q hq
      have hm1 := post1.wf1.unmarked q hq
      have hm2 := post2.wf1.unmarked q hq
      simp only [marked, ho1] at hm1
      simp only [marked, ho2] at hm2
      simp only [ho1, ho2, Option.map_some', Option.some.injEq] at hp hn
      rw [ho1, ho2, object_ext hp (by rw [hm1, hm2]) hn]
    · exact post2.frame q hq
  have hnum : VM2.NumObjects = VM1.NumObjects := by
    rw [post2.count]; simp
  have hmax : VM2.MaxObjects = VM1.MaxObjects := by
    rw [post2.max, post1.max, hnum]
  have heq : VM2 = VM1 := by
    have e1 := post2.stack
    have e2 := post2.size
    cases VM1
    cases VM2
    simp only at e1 e2 hfirst hmem hnum hmax
    simp [e1, e2, hfirst, hmem, hnum, hmax]
  rw [heq] at hr2
  exact ⟨VM1, L2, hr1, hr2, post1.wf1.registry, post1.live⟩

/-- Witness of C19 on the VM of `test4`. -/
theorem gc_idempotent_witness :
    wf test4_state [6, 5, 4, 3, 2, 1] ∧ [6, 5, 4, 3, 2, 1].length < 9 ∧
    ∃ VM1 L1, vm_gc 9 test4_state = .ok VM1 ∧ vm_gc 9 VM1 = .ok VM1 ∧
      chain VM1.mem VM1.FirstObject L1 ∧ ∀ q, q ∈ L1 ↔ Reachable test4_state q :=
  ⟨wf_test4, by decide, gc_idempotent wf_test4 (by decide)⟩

end BabysFirstGC
